import Mathlib

set_option autoImplicit false

/-!
Verification of the Baklava dataflow-engine core: a shallow embedding of
`topologicalSorting.ts` (Kahn's algorithm, cycle detection, weakly-connected
components) and `dependencyEngine.ts` (the incremental scheduler `runGraph`),
together with proofs of the specified properties.

Modelling conventions:
* JS `Map`s are insertion-ordered association lists (`aset` replaces the first
  occurrence in place or appends, like `Map.set`); JS `Set`s are
  duplicate-free lists in insertion order.
* JS values are modelled by `JsVal`; objects and arrays carry an `identity`
  tag so that JS strict equality (`===`, reference equality on objects) is
  expressible next to structural equality.
* Loops are modelled with explicit fuel so that every definition is
  executable by kernel reduction; adequacy lemmas show the fuel chosen at the
  call sites is sufficient.
* String ids play the role of the source's node / interface ids.
-/

namespace Baklava

/-- Model of a JS runtime value as used by the engine: `undef` is JS
`undefined`, `prim` a primitive (number), `obj`/`arr` are heap values carrying
an `identity` tag distinguishing different allocations of equal content. -/
inductive JsVal where
  | undef : JsVal
  | prim (n : Int) : JsVal
  | obj (identity : Nat) (payload : Int) : JsVal
  | arr (identity : Nat) (elems : List JsVal) : JsVal

/-- JS strict equality `===`: value equality on primitives and `undefined`,
reference (identity) equality on objects and arrays. -/
def jsStrictEq : JsVal → JsVal → Bool
  | .undef, .undef => true
  | .prim a, .prim b => a == b
  | .obj i _, .obj j _ => i == j
  | .arr i _, .arr j _ => i == j
  | _, _ => false

mutual

/-- Structural (value) equality on JS values, following the spec's words
("structural/value equality, not reference equality", "robust to incidental
object-identity wrappers"): heap identities are ignored, only content is
compared. This is the spec-side comparison used to check the claim about
input-change detection against the code's comparison. -/
def structuralValueEq : JsVal → JsVal → Bool
  | .undef, .undef => true
  | .prim a, .prim b => a == b
  | .obj _ p, .obj _ q => p == q
  | .arr _ xs, .arr _ ys => structuralValueEqList xs ys
  | _, _ => false

/-- Pointwise structural equality of JS value lists. -/
def structuralValueEqList : List JsVal → List JsVal → Bool
  | [], [] => true
  | x :: xs, y :: ys => structuralValueEq x y && structuralValueEqList xs ys
  | _, _ => false

end

/-- Lookup in an insertion-ordered association list (JS `Map.get`); returns
the first binding of the key. -/
def alookup {α : Type} : List (String × α) → String → Option α
  | [], _ => none
  | (k', v) :: rest, k => if k' = k then some v else alookup rest k

/-- Update in an insertion-ordered association list (JS `Map.set`): replaces
the first binding in place, or appends a new binding at the end. -/
def aset {α : Type} : List (String × α) → String → α → List (String × α)
  | [], k, v => [(k, v)]
  | (k', v') :: rest, k, v =>
      if k' = k then (k, v) :: rest else (k', v') :: aset rest k v

/-- A node interface (port): id, owning node id, stored value, whether it
accepts multiple incoming connections, and its connection count. -/
structure NodeIntf where
  id : String
  nodeId : String
  value : JsVal
  allowMultipleConnections : Bool
  connectionCount : Nat

/-- One entry of a calculation result: resolved input values and produced
output values, both keyed by port name. -/
structure ResultEntry where
  inputs : List (String × JsVal)
  outputs : List (String × JsVal)

/-- The value returned by a node's calculation step: the output record,
plus the optional `_calculationResults` key carrying a nested sub-run result
(used by subgraph nodes); the nested payload is a result map, so it is
carried out-of-band of the plain `JsVal` outputs. -/
structure CalcOutput where
  values : List (String × JsVal)
  calculationResults : Option (List (String × ResultEntry))

/-- A computation node: id, ordered input/output port mappings, an optional
calculation step, the `alwaysRecalculate` flag and the optional
`isInterfaceEqualTo` equality override. -/
structure Node where
  id : String
  inputs : List (String × NodeIntf)
  outputs : List (String × NodeIntf)
  calculate : Option (List (String × JsVal) → CalcOutput)
  alwaysRecalculate : Bool
  isInterfaceEqualTo : Option (NodeIntf → JsVal → Bool)

/-- A directed connection from an output port to an input port
(source fields `from` / `to`). -/
structure Connection where
  id : String
  fromIntf : NodeIntf
  toIntf : NodeIntf

/-- A graph: id, nodes and connections. -/
structure Graph where
  id : String
  nodes : List Node
  connections : List Connection

/-- The `interfaceIdToNodeId` map of `nodesOrGraphToData`: every input and
output interface id of every node is mapped to the owning node's id. -/
def interfaceIdToNodeId (nodes : List Node) : List (String × String) :=
  nodes.foldl (fun m n =>
    let m := n.inputs.foldl (fun m p => aset m p.2.id n.id) m
    n.outputs.foldl (fun m p => aset m p.2.id n.id) m) []

/-- The `nodeIdToNode` map of `nodesOrGraphToData`. -/
def nodeIdToNode (nodes : List Node) : List (String × Node) :=
  nodes.foldl (fun m n => aset m n.id n) []

/-- Connections whose source interface belongs to the given node
(`connections.filter((c) => c.from && interfaceIdToNodeId.get(c.from.id) === n.id)`;
the model's connections always carry a source, so the truthiness guard on
`c.from` is vacuous). -/
def connectionsFrom (iMap : List (String × String)) (conns : List Connection)
    (nid : String) : List Connection :=
  conns.filter (fun c => alookup iMap c.fromIntf.id == some nid)

/-- Insert into a JS `Set` modelled as a duplicate-free list in insertion
order. -/
def insertUniq (l : List String) (x : String) : List String :=
  if l.contains x then l else l ++ [x]

/-- `new Set(list)`: deduplicate keeping the first occurrence of each
element. -/
def dedupKeepFirst (l : List String) : List String :=
  l.foldl insertUniq []

/-- The adjacency map of `sortTopologically`: for each node, the set of ids
of nodes reached by a connection leaving it. -/
def buildAdjacency (nodes : List Node) (conns : List Connection)
    (iMap : List (String × String)) : List (String × List String) :=
  nodes.foldl (fun adj n =>
    let cfn := connectionsFrom iMap conns n.id
    aset adj n.id (dedupKeepFirst (cfn.filterMap (fun c => alookup iMap c.toIntf.id)))) []

/-- The `connectionsFromNode` map of `sortTopologically`, keyed here by node
id (the source keys by node object; node ids are unique by the data-model
invariant). -/
def buildConnectionsFromNode (nodes : List Node) (conns : List Connection)
    (iMap : List (String × String)) : List (String × List Connection) :=
  nodes.foldl (fun m n => aset m n.id (connectionsFrom iMap conns n.id)) []

/-- One step of the `startNodes` initialisation: `findIndex` + `splice(i, 1)`
removes the first node whose id is the connection target's owner (if any). -/
def removeFirstWithId (l : List Node) (target : Option String) : List Node :=
  match l with
  | [] => []
  | n :: rest =>
      if target == some n.id then rest else n :: removeFirstWithId rest target

/-- Initial `startNodes`: a copy of `nodes` from which, for every connection,
the first node owning the connection's target interface is removed. -/
def initialStartNodes (nodes : List Node) (conns : List Connection)
    (iMap : List (String × String)) : List Node :=
  conns.foldl (fun sns c => removeFirstWithId sns (alookup iMap c.toIntf.id)) nodes

/-- `Array.from(adjacency.values()).every((s) => !s.has(m))`. -/
def allLack (adj : List (String × List String)) (m : String) : Bool :=
  adj.all (fun p => !(p.2.contains m))

/-- State of the Kahn main loop. -/
structure KahnState where
  adjacency : List (String × List String)
  startNodes : List Node
  sorted : List Node

/-- The inner `while (nodesConnectedFromN.size > 0)` loop: repeatedly remove
the first element `m` of the popped node's adjacency set; if afterwards no
adjacency set contains `m`, push the node with id `m` onto `startNodes`.
`ms` is the current content of the set being drained (kept in sync with the
adjacency entry for `nId`). -/
def drainLoop (nodes : List Node) (nId : String) :
    List String → List (String × List String) → List Node →
    List (String × List String) × List Node
  | [], adj, startNodes => (adj, startNodes)
  | m :: rest, adj, startNodes =>
      let adj' := aset adj nId rest
      let startNodes' :=
        if allLack adj' m then
          match nodes.find? (fun nd => nd.id == m) with
          | some nd => startNodes ++ [nd]
          -- the source uses `nodes.find(...)!`; adjacency targets are always
          -- ids of nodes in the list, so this branch is unreachable
          | none => startNodes
        else startNodes
      drainLoop nodes nId rest adj' startNodes'

/-- The outer `while (startNodes.length > 0)` loop of Kahn's algorithm:
pop the last start node (LIFO), append it to `sorted`, and drain its
adjacency set. Fuel-indexed; the caller passes sufficient fuel. -/
def kahnLoop (nodes : List Node) : Nat → KahnState → KahnState
  | 0, st => st
  | fuel + 1, st =>
      match st.startNodes.getLast? with
      | none => st
      | some n =>
          let startNodes := st.startNodes.dropLast
          let sorted := st.sorted ++ [n]
          let ms := (alookup st.adjacency n.id).getD []
          let (adj', sns') := drainLoop nodes n.id ms st.adjacency startNodes
          kahnLoop nodes fuel ⟨adj', sns', sorted⟩

/-- Total number of remaining adjacency-set elements. -/
def totalAdjSize (adj : List (String × List String)) : Nat :=
  (adj.map (fun p => p.2.length)).sum

/-- The error raised by the topological sorter (`CycleError` is its sole
error kind). -/
inductive SortError where
  | cycleError : SortError
deriving DecidableEq

/-- Result of `sortTopologically`. -/
structure SortResult where
  calculationOrder : List Node
  connectionsFromNode : List (String × List Connection)
  interfaceIdToNodeId : List (String × String)

/-- The fuel passed to the Kahn main loop; each iteration strictly decreases
`2 * totalAdjSize + startNodes.length`, so this bound is sufficient. -/
def kahnFuel (adj : List (String × List String)) (startNodes : List Node) : Nat :=
  2 * totalAdjSize adj + startNodes.length

/-- `sortTopologically(nodes, connections)`: Kahn's algorithm; raises
`CycleError` when edges remain after exhaustion. -/
def sortTopologically (nodes : List Node) (connections : List Connection) :
    Except SortError SortResult :=
  let iMap := interfaceIdToNodeId nodes
  let adj := buildAdjacency nodes connections iMap
  let cfn := buildConnectionsFromNode nodes connections iMap
  let startNodes := initialStartNodes nodes connections iMap
  let st := kahnLoop nodes (kahnFuel adj startNodes) ⟨adj, startNodes, []⟩
  if st.adjacency.any (fun p => !p.2.isEmpty) then
    .error .cycleError
  else
    .ok ⟨st.sorted, cfn, iMap⟩

/-- The graph overload of `sortTopologically` (the source destructures the
graph into its node and connection arrays and proceeds identically). -/
def sortTopologicallyGraph (g : Graph) : Except SortError SortResult :=
  sortTopologically g.nodes g.connections

/-- `containsCycle`: run the sorter, convert `CycleError` into `true`
(any other error would be rethrown; `CycleError` is the only error kind). -/
def containsCycle (nodes : List Node) (connections : List Connection) : Bool :=
  match sortTopologically nodes connections with
  | .error .cycleError => true
  | .ok _ => false

/-- A weakly-connected graph region as produced by `connectedComponents`. -/
structure GraphComponent where
  nodes : List Node
  connections : List Connection

/-- The successor and predecessor connection maps of `connectedComponents`,
built in one pass over the nodes exactly as in the source: for each node,
ensure a (possibly empty) predecessor entry for it, push each outgoing
connection onto the predecessor list of the connection target's `nodeId`,
and record the outgoing connections as the node's successors. -/
def buildSuccPred (nodes : List Node) (conns : List Connection)
    (iMap : List (String × String)) :
    List (String × List Connection) × List (String × List Connection) :=
  nodes.foldl (fun acc n =>
    let succ := acc.1
    let pred := acc.2
    let cfn := connectionsFrom iMap conns n.id
    let pred := if (alookup pred n.id).isSome then pred else aset pred n.id []
    let pred := cfn.foldl (fun pred c =>
      let pred :=
        if (alookup pred c.toIntf.nodeId).isSome then pred
        else aset pred c.toIntf.nodeId []
      aset pred c.toIntf.nodeId ((alookup pred c.toIntf.nodeId).getD [] ++ [c])) pred
    (aset succ n.id cfn, pred)) ([], [])

/-- State threaded through the depth-first traversal of
`connectedComponents`: the global visited set and the component being
collected. -/
structure DfsState where
  visited : List String
  compNodes : List Node
  compConns : List Connection

/-- The recursive `dfs` of `connectedComponents`: if the node is already
visited return; otherwise mark it visited, collect the node and its outgoing
connections into the component, then recurse over the targets of its
successor connections and the sources of its predecessor connections.
Fuel-indexed (the recursion depth is bounded by the number of nodes). -/
def dfs (succ pred : List (String × List Connection))
    (nodeMap : List (String × Node)) :
    Nat → String → DfsState → DfsState
  | 0, _, st => st
  | fuel + 1, nodeId, st =>
      if st.visited.contains nodeId then st
      else
        let st := { st with visited := st.visited ++ [nodeId] }
        let st :=
          match alookup nodeMap nodeId with
          | some nd => { st with compNodes := st.compNodes ++ [nd] }
          -- the source pushes `nodeIdToNode.get(nodeId)!`; the traversal only
          -- ever visits ids of nodes in the list, so this branch is unreachable
          | none => st
        let nSucc := (alookup succ nodeId).getD []
        let st := { st with compConns := st.compConns ++ nSucc }
        let st := nSucc.foldl
          (fun st c => dfs succ pred nodeMap fuel c.toIntf.nodeId st) st
        ((alookup pred nodeId).getD []).foldl
          (fun st c => dfs succ pred nodeMap fuel c.fromIntf.nodeId st) st

/-- `connectedComponents(nodes, connections)`: start a depth-first traversal
from every not-yet-visited node in order, producing one component per
traversal. -/
def connectedComponents (nodes : List Node) (conns : List Connection) :
    List GraphComponent :=
  let iMap := interfaceIdToNodeId nodes
  let nodeMap := nodeIdToNode nodes
  let (succ, pred) := buildSuccPred nodes conns iMap
  (nodes.foldl (fun acc n =>
    let components := acc.1
    let visited := acc.2
    if visited.contains n.id then acc
    else
      let st := dfs succ pred nodeMap (nodes.length + 1) n.id
        ⟨visited, [], []⟩
      (components ++ [⟨st.compNodes, st.compConns⟩], st.visited)) ([], [])).1

/-- The body of the outer component loop of `connectedComponents`, named for
the loop-invariant proofs. -/
def ccStep (nodes : List Node) (conns : List Connection)
    (acc : List GraphComponent × List String) (n : Node) :
    List GraphComponent × List String :=
  if acc.2.contains n.id then acc
  else
    let st := dfs (buildSuccPred nodes conns (interfaceIdToNodeId nodes)).1
      (buildSuccPred nodes conns (interfaceIdToNodeId nodes)).2
      (nodeIdToNode nodes) (nodes.length + 1) n.id ⟨acc.2, [], []⟩
    (acc.1 ++ [⟨st.compNodes, st.compConns⟩], st.visited)

/-- `getSortedComponents`: connected components, each topologically sorted;
a `CycleError` in any component propagates. -/
def getSortedComponents (nodes : List Node) (conns : List Connection) :
    Except SortError (List SortResult) :=
  (connectedComponents nodes conns).mapM
    (fun c => sortTopologically c.nodes c.connections)

/-- The graph overload of `getSortedComponents`. -/
def getSortedComponentsGraph (g : Graph) : Except SortError (List SortResult) :=
  getSortedComponents g.nodes g.connections

/-! Spec-side notions for the graph algorithms. -/

/-- The id of the node owning an interface id, per the sorter's id map. -/
def ownerId (nodes : List Node) (intfId : String) : Option String :=
  alookup (interfaceIdToNodeId nodes) intfId

/-- The directed edge relation on node ids induced by the connections. -/
def edgeOf (nodes : List Node) (conns : List Connection) (u v : String) : Prop :=
  ∃ c ∈ conns, ownerId nodes c.fromIntf.id = some u ∧
    ownerId nodes c.toIntf.id = some v

/-- Well-formedness of a node/connection set — the data-model invariants the
spec states: node ids are unique, and every connection endpoint's interface
belongs to one of the given nodes (its owner resolves in the id map). -/
def WellFormed (nodes : List Node) (conns : List Connection) : Prop :=
  (nodes.map (fun n => n.id)).Nodup ∧
  (∀ c ∈ conns, (ownerId nodes c.fromIntf.id).isSome = true) ∧
  (∀ c ∈ conns, (ownerId nodes c.toIntf.id).isSome = true)

/-- Acyclicity of the connection-induced edge relation on node ids. -/
def Acyclic (nodes : List Node) (conns : List Connection) : Prop :=
  ∀ n, ¬ Relation.TransGen (edgeOf nodes conns) n n

/-- One undirected step between node ids: some connection links them in
either direction (the traversal of `connectedComponents` follows the
interfaces' `nodeId` fields). -/
def UStep (conns : List Connection) (u v : String) : Prop :=
  ∃ c ∈ conns, (c.fromIntf.nodeId = u ∧ c.toIntf.nodeId = v) ∨
    (c.fromIntf.nodeId = v ∧ c.toIntf.nodeId = u)

/-- Undirected reachability: connections followed in either direction. -/
def UReach (conns : List Connection) : String → String → Prop :=
  Relation.ReflTransGen (UStep conns)

/-- Data-model invariants used by `connectedComponents`: unique node ids
and interface `nodeId` fields that agree with interface ownership (the
traversal mixes the id map and the `nodeId` fields). -/
def WellLinked (nodes : List Node) (conns : List Connection) : Prop :=
  (nodes.map (fun n => n.id)).Nodup ∧
  (∀ c ∈ conns, ownerId nodes c.fromIntf.id = some c.fromIntf.nodeId) ∧
  (∀ c ∈ conns, ownerId nodes c.toIntf.id = some c.toIntf.nodeId)

/-- `map.get(key)!.push(x)` after ensuring the entry exists (the
predecessor-map update step of `connectedComponents`). -/
def pushEntry (m : List (String × List Connection)) (k : String)
    (x : Connection) : List (String × List Connection) :=
  let m := if (alookup m k).isSome then m else aset m k []
  aset m k ((alookup m k).getD [] ++ [x])

/-- The invariant carried around the outer component loop of
`connectedComponents`. -/
structure CCInv (nodes : List Node) (conns : List Connection)
    (acc : List GraphComponent × List String) : Prop where
  visitedEq : acc.2 = ((acc.1.map (fun c => c.nodes)).flatten).map (fun n => n.id)
  visitedNodup : acc.2.Nodup
  visitedSub : ∀ u ∈ acc.2, u ∈ nodes.map (fun n => n.id)
  compNodesSub : ∀ comp ∈ acc.1, ∀ x ∈ comp.nodes, x ∈ nodes
  compClosed : ∀ comp ∈ acc.1, ∀ u ∈ comp.nodes.map (fun n => n.id), ∀ v,
    UStep conns u v → v ∈ comp.nodes.map (fun n => n.id)
  compConnsIff : ∀ comp ∈ acc.1, ∀ c,
    c ∈ comp.connections ↔
      c ∈ conns ∧ c.fromIntf.nodeId ∈ comp.nodes.map (fun n => n.id)

/-- The initial adjacency set of one node as built by `sortTopologically`:
the deduplicated target-owner ids of the connections leaving the node. -/
def adjEdges (nodes : List Node) (conns : List Connection) (nid : String) :
    List String :=
  dedupKeepFirst ((connectionsFrom (interfaceIdToNodeId nodes) conns nid).filterMap
    (fun c => alookup (interfaceIdToNodeId nodes) c.toIntf.id))

/-- Whether some adjacency set still contains the id (the node still has an
unconsumed incoming edge); the complement of the algorithm's `allLack`. -/
def hasIncomingB (adj : List (String × List String)) (m : String) : Bool :=
  adj.any (fun p => p.2.contains m)

/-- The invariant carried around the Kahn main loop. -/
structure KahnInv (nodes : List Node) (conns : List Connection)
    (st : KahnState) : Prop where
  adjKeys : st.adjacency.map (fun p => p.1) = nodes.map (fun n => n.id)
  setsNodup : ∀ p ∈ st.adjacency, p.2.Nodup
  adjSub : ∀ p ∈ st.adjacency, ∀ m ∈ p.2, m ∈ adjEdges nodes conns p.1
  removedSorted : ∀ u v, v ∈ adjEdges nodes conns u →
    v ∉ (alookup st.adjacency u).getD [] → u ∈ st.sorted.map (fun n => n.id)
  sortedDrained : ∀ u ∈ st.sorted.map (fun n => n.id),
    (alookup st.adjacency u).getD [] = []
  memNodes : ∀ x ∈ st.sorted ++ st.startNodes, x ∈ nodes
  idsNodup : ((st.sorted ++ st.startNodes).map (fun n => n.id)).Nodup
  memIff : ∀ x ∈ nodes,
    (x ∈ st.sorted ++ st.startNodes ↔ hasIncomingB st.adjacency x.id = false)
  ordered : ∀ u v, v ∈ adjEdges nodes conns u →
    v ∈ st.sorted.map (fun n => n.id) →
    ∃ l₁ l₂, st.sorted.map (fun n => n.id) = l₁ ++ l₂ ∧ u ∈ l₁ ∧ v ∈ l₂

/-- The loop measure: each Kahn iteration strictly decreases it. -/
def kahnMeasure (st : KahnState) : Nat :=
  2 * totalAdjSize st.adjacency + st.startNodes.length

/-- The state of the Kahn main loop at exhaustion, as reached inside
`sortTopologically` just before the remaining-edge check. -/
def kahnEndState (nodes : List Node) (conns : List Connection) : KahnState :=
  let iMap := interfaceIdToNodeId nodes
  let adj := buildAdjacency nodes conns iMap
  let startNodes := initialStartNodes nodes conns iMap
  kahnLoop nodes (kahnFuel adj startNodes) ⟨adj, startNodes, []⟩

/-- The nodes pushed onto the worklist while draining the adjacency set `ms`
of the popped node `nId`: those set elements that have no other remaining
incoming edge once the drained entry is emptied. -/
def drainPushed (nodes : List Node) (nId : String)
    (adj : List (String × List String)) (ms : List String) : List Node :=
  ms.filterMap (fun m =>
    if allLack (aset adj nId []) m then nodes.find? (fun nd => nd.id == m)
    else none)

/-! The dependency engine (`DependencyEngine.runGraph` and `execute`). -/

/-- A notification emitted by the engine during a run. -/
inductive EngineEvent where
  | beforeCalc (nodeId : String) (inputValues : List (String × JsVal))
  | afterCalc (nodeId : String) (outputValues : List (String × JsVal))

/-- Errors aborting a run: a `CycleError` from the sorter, the internal
"Could not find key for interface" error, a missing declared output
(validation), or the JS `TypeError` of pushing onto a non-array staged
value. -/
inductive EngineError where
  | sortError (e : SortError)
  | missingIntfKey (intfId : String)
  | missingOutput (nodeId : String) (key : String)
  | pushOnNonArray (intfId : String)

/-- State threaded through one run of `runGraph`: the staged `inputs` map,
the accumulated `result` map, the emitted events, the ids of nodes whose
calculation step was invoked (an observation trace, not part of the source
state), the allocator for fresh array identities, and the pending error, if
any (a thrown JS error aborts the rest of the run). -/
structure RunState where
  inputs : List (String × JsVal)
  result : List (String × ResultEntry)
  events : List EngineEvent
  invoked : List String
  nextIdentity : Nat
  error : Option EngineError

/-- Resolve an input port's value during a run:
`inputs.has(intf.id) ? inputs.get(intf.id) : intf.value`. -/
def resolveInput (inputs : List (String × JsVal)) (intf : NodeIntf) : JsVal :=
  match alookup inputs intf.id with
  | some v => v
  | none => intf.value

/-- Input-change detection for one port: use the node's
`isInterfaceEqualTo` predicate when the node defines one, otherwise JS
strict inequality against the port's stored value
(`inputValues[k] !== intf.value`). -/
def inputChangedFor (node : Node) (intf : NodeIntf) (resolved : JsVal) : Bool :=
  match node.isInterfaceEqualTo with
  | some eq => !(eq intf resolved)
  | none => !(jsStrictEq resolved intf.value)

/-- Modelled from the spec: `validateNodeCalculationOutput` belongs to the
BaseEngine, whose source is not under src/; §4.4 item 7 requires the
produced outputs to cover every output port the node declares, a missing
output being a reportable error. -/
def validateNodeCalculationOutput (node : Node)
    (outputValues : List (String × JsVal)) : Option EngineError :=
  match node.outputs.find? (fun p => (alookup outputValues p.1).isNone) with
  | some p => some (.missingOutput node.id p.1)
  | none => none

/-- The body of the per-connection `forEach` of `runGraph`: find the output
key for the connection's source interface, apply the `transferData` hook,
then stage the value on the destination port — appending to the staged array
(or creating a fresh one) when the port allows multiple connections,
overwriting otherwise. -/
def stageOne (transferData : JsVal → Connection → JsVal) (node : Node)
    (outputValues : List (String × JsVal)) (st : RunState) (c : Connection) :
    RunState :=
  if st.error.isSome then st
  else
    match node.outputs.find? (fun p => p.2.id == c.fromIntf.id) with
    | none => { st with error := some (.missingIntfKey c.fromIntf.id) }
    | some kp =>
        let v := transferData ((alookup outputValues kp.1).getD .undef) c
        if c.toIntf.allowMultipleConnections then
          match alookup st.inputs c.toIntf.id with
          | some (.arr i elems) =>
              { st with inputs := aset st.inputs c.toIntf.id (.arr i (elems ++ [v])) }
          | some _ => { st with error := some (.pushOnNonArray c.toIntf.id) }
          | none =>
              { st with
                  inputs := aset st.inputs c.toIntf.id (.arr st.nextIdentity [v]),
                  nextIdentity := st.nextIdentity + 1 }
        else
          { st with inputs := aset st.inputs c.toIntf.id v }

/-- The owning node id carried by an event. -/
def eventNodeId : EngineEvent → String
  | .beforeCalc nid _ => nid
  | .afterCalc nid _ => nid

/-- The `inputValues` record of the per-node loop: each input port's
resolved value, keyed by port name. -/
def resolvedInputRecord (inputs : List (String × JsVal)) (node : Node) :
    List (String × JsVal) :=
  node.inputs.map (fun p => (p.1, resolveInput inputs p.2))

/-- The `inputsChanged` record of the per-node loop: each input port's
change flag, keyed by port name. -/
def inputsChangedRecord (inputs : List (String × JsVal)) (node : Node) :
    List (String × Bool) :=
  node.inputs.map (fun p => (p.1, inputChangedFor node p.2 (resolveInput inputs p.2)))

/-- The current stored output values of a node, keyed by port name
(`Object.fromEntries(Object.entries(node.outputs).map(([k, v]) => [k, v.value]))`). -/
def storedOutputRecord (node : Node) : List (String × JsVal) :=
  node.outputs.map (fun p => (p.1, p.2.value))

/-- The invocation condition of `runGraph`:
`!updatedNode || node.id === updatedNode.id || node.alwaysRecalculate ||
Object.values(inputsChanged).filter((v) => !!v).length`. -/
def invokeDecision (updatedNode : Option String) (node : Node)
    (inputsChanged : List (String × Bool)) : Bool :=
  updatedNode.isNone || updatedNode == some node.id || node.alwaysRecalculate ||
    (inputsChanged.filter (fun p => p.2)).length != 0

/-- The tail of the per-node loop shared by both branches: validate the
output values, emit the after event, record the result entry, merge a nested
`_calculationResults` sub-run result, if any, then stage the outgoing
connections' values. -/
def finishNode (connectionsFromNode : List (String × List Connection))
    (transferData : JsVal → Connection → JsVal) (node : Node)
    (inputValues outputValues : List (String × JsVal))
    (calcResults : Option (List (String × ResultEntry))) (st : RunState) :
    RunState :=
  match validateNodeCalculationOutput node outputValues with
  | some e => { st with error := some e }
  | none =>
      let st := { st with events := st.events ++ [EngineEvent.afterCalc node.id outputValues] }
      let st := { st with result := aset st.result node.id ⟨inputValues, outputValues⟩ }
      let st :=
        match calcResults with
        | some entries =>
            { st with result := entries.foldl (fun r p => aset r p.1 p.2) st.result }
        | none => st
      match alookup connectionsFromNode node.id with
      | some cs => cs.foldl (stageOne transferData node outputValues) st
      | none => st

/-- The body of the per-node loop of `calculateComponent`: skip nodes
without a calculation step; resolve inputs and record per-port change flags;
emit the before event; invoke the calculation step when the invocation
condition holds (no updated-node hint, or the node is the updated node, or
it is flagged `alwaysRecalculate`, or any input changed) — otherwise reuse
the node's stored output values; then run the shared tail. -/
def processNode (updatedNode : Option String)
    (connectionsFromNode : List (String × List Connection))
    (transferData : JsVal → Connection → JsVal)
    (st : RunState) (node : Node) : RunState :=
  if st.error.isSome then st
  else
    match node.calculate with
    | none => st
    | some calcStep =>
        let inputValues := resolvedInputRecord st.inputs node
        let st1 := { st with events := st.events ++ [EngineEvent.beforeCalc node.id inputValues] }
        if invokeDecision updatedNode node (inputsChangedRecord st.inputs node) then
          let co := calcStep inputValues
          finishNode connectionsFromNode transferData node inputValues co.values
            co.calculationResults { st1 with invoked := st1.invoked ++ [node.id] }
        else
          finishNode connectionsFromNode transferData node inputValues
            (storedOutputRecord node) none st1

/-- `calculateComponent` of the dependency engine: process the component's
calculation order from its first node. -/
def calculateComponent (updatedNode : Option String)
    (transferData : JsVal → Connection → JsVal)
    (st : RunState) (comp : SortResult) : RunState :=
  comp.calculationOrder.foldl
    (processNode updatedNode comp.connectionsFromNode transferData) st

/-- The component loop of `runGraph`: a sorted component containing no node
with the updated node's id is skipped entirely. -/
def runComponentsLoop (updatedNode : Option String)
    (transferData : JsVal → Connection → JsVal)
    (components : List SortResult) (st : RunState) : RunState :=
  components.foldl (fun st comp =>
    if updatedNode.isSome &&
        (comp.calculationOrder.find? (fun n => some n.id == updatedNode)).isNone then st
    else calculateComponent updatedNode transferData st comp) st

/-- The run state at the start of a run. -/
def initialRunState (inputs : List (String × JsVal)) (nextIdentity : Nat) :
    RunState :=
  ⟨inputs, [], [], [], nextIdentity, none⟩

/-- `DependencyEngine.runGraph(graph, inputs, calculationData)`: obtain the
sorted components of the graph (the per-graph cache is transparent to a
single run) and process every component that is not skipped. `updatedNode`
is the consumed update hint; `transferData` the external transfer hook;
`nextIdentity` seeds the allocator for arrays created while staging. -/
def runGraphModel (g : Graph) (inputs : List (String × JsVal))
    (updatedNode : Option String)
    (transferData : JsVal → Connection → JsVal) (nextIdentity : Nat) :
    RunState :=
  match getSortedComponents g.nodes g.connections with
  | .error e => { initialRunState inputs nextIdentity with error := some (.sortError e) }
  | .ok comps =>
      runComponentsLoop updatedNode transferData comps
        (initialRunState inputs nextIdentity)

/-- The external-input gathering of `execute`: the current value of every
input port with zero connections, keyed by interface id. -/
def gatherUnconnectedInputs (nodes : List Node) : List (String × JsVal) :=
  nodes.foldl (fun m n =>
    n.inputs.foldl (fun m p =>
      if p.2.connectionCount == 0 then aset m p.2.id p.2.value else m) m) []

/-- `DependencyEngine.execute`: gather the unconnected input values and run
the root graph. -/
def executeModel (g : Graph) (updatedNode : Option String)
    (transferData : JsVal → Connection → JsVal) (nextIdentity : Nat) :
    RunState :=
  runGraphModel g (gatherUnconnectedInputs g.nodes) updatedNode transferData
    nextIdentity

/-- Write one result entry's output values into a node: each listed output
value whose port name exists on the node is stored; unknown port names are
skipped. -/
def writeNodeOutputs (n : Node) (outs : List (String × JsVal)) : Node :=
  { n with
      outputs := outs.foldl (fun acc p =>
        acc.map (fun q => if q.1 = p.1 then (q.1, { q.2 with value := p.2 }) else q))
        n.outputs }

/-- Modelled from the spec: the source of `applyResult` is not under src/
(only its tests are). §4.5: for every entry of the result, look up the node
by id in the graph owner; if found, write each output value into the
corresponding output port's stored value; if the node id is unknown,
silently skip the entry; the operation never raises an error (it is a total
function of the result and the graph). -/
def applyResult (result : List (String × ResultEntry)) (nodes : List Node) :
    List Node :=
  result.foldl (fun ns p =>
    ns.map (fun n => if n.id = p.1 then writeNodeOutputs n p.2.outputs else n))
    nodes

/-! Concrete fixtures used by witnesses and counterexamples. -/

/-- An input port whose stored value is an object with identity 1 and
payload 5. -/
def storedObjIntf : NodeIntf := ⟨"pa", "p", .obj 1 5, false, 0⟩

/-- A node that does not define the `isInterfaceEqualTo` override. -/
def plainEqNode : Node :=
  { id := "p", inputs := [("a", storedObjIntf)], outputs := []
    calculate := none, alwaysRecalculate := false, isInterfaceEqualTo := none }

/-- A node whose `isInterfaceEqualTo` override performs structural
comparison of the stored and resolved values. -/
def overrideEqNode : Node :=
  { id := "q", inputs := [("a", storedObjIntf)], outputs := []
    calculate := none, alwaysRecalculate := false
    isInterfaceEqualTo := some (fun i v => structuralValueEq i.value v) }

/-- A concrete interface for test graphs. -/
def tIntf (i nid : String) (v : JsVal) (cc : Nat := 0) (multi : Bool := false) :
    NodeIntf :=
  ⟨i, nid, v, multi, cc⟩

/-- The calculation step of the repository's `TestNode`:
`c = a + b`, `d = a - b`. -/
def tCalc (ins : List (String × JsVal)) : CalcOutput :=
  let a := match alookup ins "a" with | some (.prim n) => n | _ => 0
  let b := match alookup ins "b" with | some (.prim n) => n | _ => 0
  ⟨[("c", .prim (a + b)), ("d", .prim (a - b))], none⟩

/-- Test graph for an incremental run (the repository test "should not
recalculate node if inputs weren't changed"): node n1 with stored inputs
`a=1, b=1` and stored outputs `c=2, d=0` from the previous applied run. -/
def fn1 : Node :=
  { id := "n1"
    inputs := [("a", tIntf "i1a" "n1" (.prim 1)), ("b", tIntf "i1b" "n1" (.prim 1))]
    outputs := [("c", tIntf "o1c" "n1" (.prim 2)), ("d", tIntf "o1d" "n1" (.prim 0))]
    calculate := some tCalc, alwaysRecalculate := false, isInterfaceEqualTo := none }

/-- Node n2 of the incremental run graph, downstream of n1 via
`n1.c → n2.a`; stored input `a=2` (connected), `b=1`, stored outputs
`c=3, d=1` from the previous applied run. -/
def fn2 : Node :=
  { id := "n2"
    inputs := [("a", tIntf "i2a" "n2" (.prim 2) 1), ("b", tIntf "i2b" "n2" (.prim 1))]
    outputs := [("c", tIntf "o2c" "n2" (.prim 3)), ("d", tIntf "o2d" "n2" (.prim 1))]
    calculate := some tCalc, alwaysRecalculate := false, isInterfaceEqualTo := none }

/-- The connection `n1.c → n2.a` of the incremental run graph. -/
def fcn : Connection := ⟨"cn", tIntf "o1c" "n1" (.prim 2), tIntf "i2a" "n2" (.prim 2) 1⟩

/-- The incremental run graph `n1 → n2`, in the state left behind by a
previous run whose result was applied. -/
def hintGraph : Graph := ⟨"g", [fn1, fn2], [fcn]⟩

/-- A node whose calculation step embeds a nested `_calculationResults`
sub-run result carrying an entry keyed "B" (the way a subgraph node
surfaces its inner nodes' results). -/
def subResNodeA : Node :=
  { id := "A", inputs := [], outputs := []
    calculate := some (fun _ => ⟨[], some [("B", ⟨[], [("o", .prim 7)]⟩)]⟩)
    alwaysRecalculate := false, isInterfaceEqualTo := none }

/-- An unconnected node with id "B", forming its own component. -/
def plainNodeB : Node :=
  { id := "B", inputs := [], outputs := []
    calculate := some (fun _ => ⟨[], none⟩)
    alwaysRecalculate := false, isInterfaceEqualTo := none }

/-- A two-component graph: component {A} (whose node merges a nested result
keyed "B") and component {B}. -/
def subResGraph : Graph := ⟨"gs", [subResNodeA, plainNodeB], []⟩

/-- The transfer-hook-applied value staged for a connection: the hook applied
to the produced value of the output port owning the connection's source (the
`""` default is irrelevant: it is only reached when the source port cannot be
found, a case excluded wherever this definition is used). -/
def stagedValue (td : JsVal → Connection → JsVal) (node : Node)
    (ov : List (String × JsVal)) (c : Connection) : JsVal :=
  td ((alookup ov
    (((node.outputs.find? (fun q => q.2.id == c.fromIntf.id)).map
      (fun q => q.1)).getD "")).getD .undef) c

/-- A destination input port that allows multiple connections. -/
def multiIntf : NodeIntf := ⟨"ma", "m2", .undef, true, 2⟩

/-- A connection from fn1's output `c` to the multi-connection port. -/
def mcx1 : Connection := ⟨"k1", tIntf "o1c" "n1" (.prim 2), multiIntf⟩

/-- A connection from fn1's output `d` to the multi-connection port. -/
def mcx2 : Connection := ⟨"k2", tIntf "o1d" "n1" (.prim 0), multiIntf⟩

/-- Node "ca" of a two-node cyclic fixture. -/
def cycNodeA : Node :=
  { id := "ca", inputs := [("i", tIntf "cai" "ca" (.prim 0) 1)]
    outputs := [("o", tIntf "cao" "ca" (.prim 0))]
    calculate := none, alwaysRecalculate := false, isInterfaceEqualTo := none }

/-- Node "cb" of the cyclic fixture. -/
def cycNodeB : Node :=
  { id := "cb", inputs := [("i", tIntf "cbi" "cb" (.prim 0) 1)]
    outputs := [("o", tIntf "cbo" "cb" (.prim 0))]
    calculate := none, alwaysRecalculate := false, isInterfaceEqualTo := none }

/-- The connection `ca.o → cb.i` of the cyclic fixture. -/
def cycConnAB : Connection :=
  ⟨"cc1", tIntf "cao" "ca" (.prim 0), tIntf "cbi" "cb" (.prim 0) 1⟩

/-- The connection `cb.o → ca.i` closing the cycle. -/
def cycConnBA : Connection :=
  ⟨"cc2", tIntf "cbo" "cb" (.prim 0), tIntf "cai" "ca" (.prim 0) 1⟩

/-- An isolated third node (its own component) with the TestNode step. -/
def isoNode : Node :=
  { id := "n3"
    inputs := [("a", tIntf "i3a" "n3" (.prim 1)), ("b", tIntf "i3b" "n3" (.prim 1))]
    outputs := [("c", tIntf "o3c" "n3" (.prim 2)), ("d", tIntf "o3d" "n3" (.prim 0))]
    calculate := some tCalc, alwaysRecalculate := false, isInterfaceEqualTo := none }

/-- A two-component graph: `n1 → n2` plus the isolated `n3`. -/
def skipGraph : Graph := ⟨"gk", [fn1, fn2, isoNode], [fcn]⟩

end Baklava

/-! ## Lemmas and theorems -/

namespace Baklava

theorem alookup_aset_self {α : Type} (m : List (String × α)) (k : String) (v : α) :
    alookup (aset m k v) k = some v := by
  induction m with
  | nil => simp [aset, alookup]
  | cons p rest ih =>
      obtain ⟨k', v'⟩ := p
      by_cases h : k' = k
      · simp [aset, h, alookup]
      · simp [aset, h, alookup, ih]

theorem alookup_aset_ne {α : Type} (m : List (String × α)) (k k' : String) (v : α)
    (h : k' ≠ k) : alookup (aset m k v) k' = alookup m k' := by
  induction m with
  | nil => simp [aset, alookup, Ne.symm h]
  | cons p rest ih =>
      obtain ⟨k'', v''⟩ := p
      by_cases hk : k'' = k
      · subst hk; simp [aset, alookup, Ne.symm h]
      · simp [aset, hk, alookup, ih]

theorem stageOne_invoked (td : JsVal → Connection → JsVal) (node : Node)
    (ov : List (String × JsVal)) (st : RunState) (c : Connection) :
    (stageOne td node ov st c).invoked = st.invoked := by
  unfold stageOne
  repeat' first | rfl | split

theorem stageOne_result (td : JsVal → Connection → JsVal) (node : Node)
    (ov : List (String × JsVal)) (st : RunState) (c : Connection) :
    (stageOne td node ov st c).result = st.result := by
  unfold stageOne
  repeat' first | rfl | split

theorem stageOne_events (td : JsVal → Connection → JsVal) (node : Node)
    (ov : List (String × JsVal)) (st : RunState) (c : Connection) :
    (stageOne td node ov st c).events = st.events := by
  unfold stageOne
  repeat' first | rfl | split

theorem foldl_stageOne_invoked (td : JsVal → Connection → JsVal) (node : Node)
    (ov : List (String × JsVal)) (cs : List Connection) (st : RunState) :
    (cs.foldl (stageOne td node ov) st).invoked = st.invoked := by
  induction cs generalizing st with
  | nil => rfl
  | cons c cs ih => rw [List.foldl_cons, ih, stageOne_invoked]

theorem foldl_stageOne_result (td : JsVal → Connection → JsVal) (node : Node)
    (ov : List (String × JsVal)) (cs : List Connection) (st : RunState) :
    (cs.foldl (stageOne td node ov) st).result = st.result := by
  induction cs generalizing st with
  | nil => rfl
  | cons c cs ih => rw [List.foldl_cons, ih, stageOne_result]

theorem foldl_stageOne_events (td : JsVal → Connection → JsVal) (node : Node)
    (ov : List (String × JsVal)) (cs : List Connection) (st : RunState) :
    (cs.foldl (stageOne td node ov) st).events = st.events := by
  induction cs generalizing st with
  | nil => rfl
  | cons c cs ih => rw [List.foldl_cons, ih, stageOne_events]

theorem alookup_map_isSome {β γ : Type} (l : List (String × β)) (g : String × β → γ)
    (p : String × β) (hp : p ∈ l) :
    (alookup (l.map (fun q => (q.1, g q))) p.1).isSome = true := by
  induction l with
  | nil => cases hp
  | cons q rest ih =>
      simp only [List.map_cons, alookup]
      by_cases h : q.1 = p.1
      · simp [h]
      · rcases List.mem_cons.mp hp with h' | h'
        · subst h'; exact absurd rfl h
        · simp [h, ih h']

theorem validate_stored_outputs (node : Node) :
    validateNodeCalculationOutput node (storedOutputRecord node) = none := by
  have h : node.outputs.find?
      (fun p => (alookup (storedOutputRecord node) p.1).isNone) = none := by
    apply List.find?_eq_none.mpr
    intro p hp
    have h2 := alookup_map_isSome node.outputs (fun q => q.2.value) p hp
    rcases h3 : alookup (storedOutputRecord node) p.1 with _ | v
    · unfold storedOutputRecord at h3; rw [h3] at h2; cases h2
    · simp [h3]
  unfold validateNodeCalculationOutput
  rw [h]

theorem finishNode_invoked (cfn : List (String × List Connection))
    (td : JsVal → Connection → JsVal) (node : Node)
    (iv ov : List (String × JsVal)) (cr : Option (List (String × ResultEntry)))
    (st : RunState) : (finishNode cfn td node iv ov cr st).invoked = st.invoked := by
  unfold finishNode
  repeat' first | rfl | (rw [foldl_stageOne_invoked]) | split

theorem finishNode_result_of_none (cfn : List (String × List Connection))
    (td : JsVal → Connection → JsVal) (node : Node)
    (iv ov : List (String × JsVal)) (st : RunState)
    (hval : validateNodeCalculationOutput node ov = none) :
    (finishNode cfn td node iv ov none st).result = aset st.result node.id ⟨iv, ov⟩ := by
  unfold finishNode
  rw [hval]
  dsimp only
  split
  · rw [foldl_stageOne_result]
  · rfl

theorem invokeDecision_iff (u : Option String) (node : Node)
    (inputs : List (String × JsVal)) :
    invokeDecision u node (inputsChangedRecord inputs node) = true ↔
      (u = none ∨ u = some node.id ∨ node.alwaysRecalculate = true ∨
        ∃ p ∈ node.inputs, inputChangedFor node p.2 (resolveInput inputs p.2) = true) := by
  unfold invokeDecision
  simp only [Bool.or_eq_true, Option.isNone_iff_eq_none, beq_iff_eq, bne_iff_ne, ne_eq]
  constructor
  · rintro (((h | h) | h) | h)
    · exact Or.inl h
    · exact Or.inr (Or.inl h)
    · exact Or.inr (Or.inr (Or.inl h))
    · refine Or.inr (Or.inr (Or.inr ?_))
      have hne : (inputsChangedRecord inputs node).filter (fun p => p.2) ≠ [] := by
        intro hh
        exact h (by rw [hh]; rfl)
      rcases List.exists_mem_of_ne_nil _ hne with ⟨q, hq⟩
      have hq2 := List.mem_filter.mp hq
      rcases List.mem_map.mp hq2.1 with ⟨p, hp, hpq⟩
      refine ⟨p, hp, ?_⟩
      have : q.2 = true := hq2.2
      rw [← hpq] at this
      exact this
  · rintro (h | h | h | ⟨p, hp, hchg⟩)
    · exact Or.inl (Or.inl (Or.inl h))
    · exact Or.inl (Or.inl (Or.inr h))
    · exact Or.inl (Or.inr h)
    · refine Or.inr ?_
      intro hlen
      have hmem : (p.1, inputChangedFor node p.2 (resolveInput inputs p.2)) ∈
          inputsChangedRecord inputs node :=
        List.mem_map.mpr ⟨p, hp, rfl⟩
      have hfil : (p.1, inputChangedFor node p.2 (resolveInput inputs p.2)) ∈
          (inputsChangedRecord inputs node).filter (fun p => p.2) :=
        List.mem_filter.mpr ⟨hmem, by simpa using hchg⟩
      have := List.ne_nil_of_mem hfil
      rw [List.length_eq_zero] at hlen
      exact this hlen

/-- Characterisation of the invocation decision inside the per-node loop:
the step is invoked exactly when there is no hint, or the node is the hinted
one, or `alwaysRecalculate` is set, or some resolved input is flagged as
changed; the skip branch reuses the stored output values. -/
theorem processNode_invocation_spec (u : Option String)
    (cfn : List (String × List Connection)) (td : JsVal → Connection → JsVal)
    (st : RunState) (node : Node)
    (calcStep : List (String × JsVal) → CalcOutput)
    (herr : st.error = none) (hc : node.calculate = some calcStep) :
    ((processNode u cfn td st node).invoked = st.invoked ++ [node.id] ↔
      (u = none ∨ u = some node.id ∨ node.alwaysRecalculate = true ∨
        ∃ p ∈ node.inputs, inputChangedFor node p.2 (resolveInput st.inputs p.2) = true)) ∧
    (¬(u = none ∨ u = some node.id ∨ node.alwaysRecalculate = true ∨
        ∃ p ∈ node.inputs, inputChangedFor node p.2 (resolveInput st.inputs p.2) = true) →
      (processNode u cfn td st node).invoked = st.invoked ∧
      alookup (processNode u cfn td st node).result node.id =
        some ⟨resolvedInputRecord st.inputs node, storedOutputRecord node⟩) := by
  have hiff := invokeDecision_iff u node st.inputs
  have hred : processNode u cfn td st node =
      (if invokeDecision u node (inputsChangedRecord st.inputs node) then
        let co := calcStep (resolvedInputRecord st.inputs node)
        finishNode cfn td node (resolvedInputRecord st.inputs node) co.values
          co.calculationResults
          { st with
              events := st.events ++
                [EngineEvent.beforeCalc node.id (resolvedInputRecord st.inputs node)],
              invoked := st.invoked ++ [node.id] }
      else
        finishNode cfn td node (resolvedInputRecord st.inputs node)
          (storedOutputRecord node) none
          { st with
              events := st.events ++
                [EngineEvent.beforeCalc node.id (resolvedInputRecord st.inputs node)] }) := by
    unfold processNode
    rw [herr, hc]
    rfl
  cases hd : invokeDecision u node (inputsChangedRecord st.inputs node) with
  | false =>
      rw [hd] at hred
      simp only [Bool.false_eq_true, if_false] at hred
      have hinv : (processNode u cfn td st node).invoked = st.invoked := by
        rw [hred, finishNode_invoked]
      have hcondF : ¬(u = none ∨ u = some node.id ∨ node.alwaysRecalculate = true ∨
          ∃ p ∈ node.inputs, inputChangedFor node p.2 (resolveInput st.inputs p.2) = true) := by
        intro hcond
        rw [hiff.mpr hcond] at hd
        simp at hd
      constructor
      · constructor
        · intro h
          rw [hinv] at h
          exact absurd h (by simp)
        · intro hcond
          exact absurd hcond hcondF
      · intro _
        refine ⟨hinv, ?_⟩
        rw [hred, finishNode_result_of_none _ _ _ _ _ _ (validate_stored_outputs node)]
        exact alookup_aset_self _ _ _
  | true =>
      rw [hd] at hred
      simp only [if_true] at hred
      have hinv : (processNode u cfn td st node).invoked = st.invoked ++ [node.id] := by
        rw [hred, finishNode_invoked]
      have hcondT := hiff.mp hd
      exact ⟨⟨fun _ => hcondT, fun _ => hinv⟩, fun hcond => absurd hcondT hcond⟩

/-- C4: in `runGraph`, a visited node with a calculation step has the step
invoked exactly when there is no updated-node hint, or the node's id is the
hint's id, or the node is flagged `alwaysRecalculate`, or at least one
resolved input differs from that port's previously stored value (per the
engine's per-port change detection); when it is not invoked, the invocation
trace is unchanged and the node's result entry carries its currently stored
output values as this run's outputs. -/
theorem runGraph_invocation_condition (u : Option String)
    (cfn : List (String × List Connection)) (td : JsVal → Connection → JsVal)
    (st : RunState) (node : Node)
    (calcStep : List (String × JsVal) → CalcOutput)
    (herr : st.error = none) (hc : node.calculate = some calcStep) :
    ((processNode u cfn td st node).invoked = st.invoked ++ [node.id] ↔
      (u = none ∨ u = some node.id ∨ node.alwaysRecalculate = true ∨
        ∃ p ∈ node.inputs, inputChangedFor node p.2 (resolveInput st.inputs p.2) = true)) ∧
    (¬(u = none ∨ u = some node.id ∨ node.alwaysRecalculate = true ∨
        ∃ p ∈ node.inputs, inputChangedFor node p.2 (resolveInput st.inputs p.2) = true) →
      (processNode u cfn td st node).invoked = st.invoked ∧
      alookup (processNode u cfn td st node).result node.id =
        some ⟨resolvedInputRecord st.inputs node, storedOutputRecord node⟩) :=
  processNode_invocation_spec u cfn td st node calcStep herr hc

/-- Witness for the invocation-condition theorem: with no updated-node hint,
a concrete node's calculation step is invoked. -/
theorem runGraph_invocation_condition_witness :
    (processNode none [] (fun v _ => v) (initialRunState [] 0) fn1).invoked =
      [] ++ ["n1"] :=
  ((runGraph_invocation_condition none [] (fun v _ => v) (initialRunState [] 0)
    fn1 tCalc rfl rfl).1).mpr (Or.inl rfl)

/-- C8 as stated is refuted: for a node that does not define the
`isInterfaceEqualTo` override, input-change detection falls back to JS
strict (reference) equality — a resolved value that is structurally equal to
the port's stored value but a distinct heap object is flagged as changed. -/
theorem inputChange_reference_equality_cex :
    inputChangedFor plainEqNode storedObjIntf (JsVal.obj 2 5) = true ∧
    structuralValueEq (JsVal.obj 2 5) storedObjIntf.value = true ∧
    plainEqNode.isInterfaceEqualTo = none :=
  ⟨rfl, rfl, rfl⟩

/-- C8 amended: input-change detection compares the resolved value with the
port's previously stored value using the node-overridable
`isInterfaceEqualTo` predicate when the node defines one; otherwise it falls
back to JS strict inequality, which on objects is reference (identity)
equality — structural robustness holds only for nodes that define the
predicate. -/
theorem inputChange_detection_amended (node : Node) (intf : NodeIntf)
    (resolved : JsVal) :
    (∀ eqFn, node.isInterfaceEqualTo = some eqFn →
      inputChangedFor node intf resolved = !eqFn intf resolved) ∧
    (node.isInterfaceEqualTo = none →
      inputChangedFor node intf resolved = !jsStrictEq resolved intf.value) ∧
    (∀ i j p q, jsStrictEq (JsVal.obj i p) (JsVal.obj j q) = (i == j)) := by
  refine ⟨?_, ?_, ?_⟩
  · intro eqFn h
    unfold inputChangedFor
    rw [h]
  · intro h
    unfold inputChangedFor
    rw [h]
  · intro i j p q
    rfl

/-- Witness for the amended detection theorem: a node overriding the
predicate with structural comparison does not flag a structurally equal but
identity-distinct value as changed. -/
theorem inputChange_detection_amended_witness :
    inputChangedFor overrideEqNode storedObjIntf (JsVal.obj 2 5) = false := by
  have h := (inputChange_detection_amended overrideEqNode storedObjIntf
    (JsVal.obj 2 5)).1 (fun i v => structuralValueEq i.value v) rfl
  rw [h]
  rfl

theorem stageOne_multi_append_step (td : JsVal → Connection → JsVal)
    (node : Node) (ov : List (String × JsVal)) (st : RunState) (c : Connection)
    (kp : String × NodeIntf) (herr : st.error = none)
    (hkp : node.outputs.find? (fun q => q.2.id == c.fromIntf.id) = some kp)
    (hmulti : c.toIntf.allowMultipleConnections = true)
    (ident : Nat) (elems : List JsVal)
    (hcur : alookup st.inputs c.toIntf.id = some (.arr ident elems)) :
    stageOne td node ov st c =
      { st with inputs := (aset st.inputs c.toIntf.id (.arr ident (elems ++ [td ((alookup ov kp.1).getD .undef) c]))) } := by
  unfold stageOne
  rw [herr, hkp]
  simp only [Option.isSome_none, Bool.false_eq_true, if_false, hmulti, if_true, hcur]

theorem stageOne_multi_create_step (td : JsVal → Connection → JsVal)
    (node : Node) (ov : List (String × JsVal)) (st : RunState) (c : Connection)
    (kp : String × NodeIntf) (herr : st.error = none)
    (hkp : node.outputs.find? (fun q => q.2.id == c.fromIntf.id) = some kp)
    (hmulti : c.toIntf.allowMultipleConnections = true)
    (hcur : alookup st.inputs c.toIntf.id = none) :
    stageOne td node ov st c =
      { st with
          inputs := (aset st.inputs c.toIntf.id (.arr st.nextIdentity [td ((alookup ov kp.1).getD .undef) c])),
          nextIdentity := st.nextIdentity + 1 } := by
  unfold stageOne
  rw [herr, hkp]
  simp only [Option.isSome_none, Bool.false_eq_true, if_false, hmulti, if_true, hcur]

theorem stageOne_single_step (td : JsVal → Connection → JsVal)
    (node : Node) (ov : List (String × JsVal)) (st : RunState) (c : Connection)
    (kp : String × NodeIntf) (herr : st.error = none)
    (hkp : node.outputs.find? (fun q => q.2.id == c.fromIntf.id) = some kp)
    (hmulti : c.toIntf.allowMultipleConnections = false) :
    stageOne td node ov st c =
      { st with inputs := (aset st.inputs c.toIntf.id (td ((alookup ov kp.1).getD .undef) c)) } := by
  unfold stageOne
  rw [herr, hkp]
  simp only [Option.isSome_none, Bool.false_eq_true, if_false, hmulti]

theorem stagedValue_eq (td : JsVal → Connection → JsVal) (node : Node)
    (ov : List (String × JsVal)) (c : Connection) (kp : String × NodeIntf)
    (hkp : node.outputs.find? (fun q => q.2.id == c.fromIntf.id) = some kp) :
    td ((alookup ov kp.1).getD .undef) c = stagedValue td node ov c := by
  unfold stagedValue
  rw [hkp]
  rfl

theorem foldl_stageOne_multi_extend (td : JsVal → Connection → JsVal)
    (node : Node) (ov : List (String × JsVal)) (cs : List Connection) :
    ∀ (st : RunState) (p : NodeIntf) (ident : Nat) (elems : List JsVal),
      (∀ c ∈ cs, c.toIntf = p) → p.allowMultipleConnections = true →
      (∀ c ∈ cs, (node.outputs.find? (fun q => q.2.id == c.fromIntf.id)).isSome = true) →
      st.error = none → alookup st.inputs p.id = some (.arr ident elems) →
      alookup (cs.foldl (stageOne td node ov) st).inputs p.id =
        some (.arr ident (elems ++ cs.map (stagedValue td node ov))) ∧
      (cs.foldl (stageOne td node ov) st).error = none := by
  induction cs with
  | nil =>
      intro st p ident elems _ _ _ herr hcur
      simpa using ⟨hcur, herr⟩
  | cons c rest ih =>
      intro st p ident elems hto hmulti hfind herr hcur
      rcases Option.isSome_iff_exists.mp (hfind c (by simp)) with ⟨kp, hkp⟩
      have htoc : c.toIntf = p := hto c (by simp)
      have hstep := stageOne_multi_append_step td node ov st c kp herr hkp
        (by rw [htoc]; exact hmulti) ident elems (by rw [htoc]; exact hcur)
      rw [List.foldl_cons, hstep]
      have hval := stagedValue_eq td node ov c kp hkp
      have h1 : alookup ({ st with inputs := (aset st.inputs c.toIntf.id (.arr ident (elems ++ [td ((alookup ov kp.1).getD .undef) c]))) } : RunState).inputs
            p.id = some (.arr ident (elems ++ [stagedValue td node ov c])) := by
        show alookup (aset st.inputs c.toIntf.id _) p.id = _
        rw [htoc, hval, alookup_aset_self]
      have hrec := ih _ p ident (elems ++ [stagedValue td node ov c])
        (fun c' hc' => hto c' (by simp [hc'])) hmulti
        (fun c' hc' => hfind c' (by simp [hc'])) (by exact herr) h1
      rw [List.map_cons]
      refine ⟨?_, hrec.2⟩
      rw [hrec.1]
      simp [List.append_assoc]

/-- C7: during a run, a staged write to a destination port that allows
multiple connections appends the transform-hook-applied value to the staged
array (creating a fresh one on the first staged write), while a staged write
to a single-connection port overwrites any previously staged value;
consequently a multi-connection port's resolved input is the ordered
sequence of the transform-hook-applied values contributed by its
connections, in processing order. -/
theorem multi_connection_staging (td : JsVal → Connection → JsVal)
    (node : Node) (ov : List (String × JsVal)) (st : RunState)
    (herr : st.error = none) :
    (∀ c kp, node.outputs.find? (fun q => q.2.id == c.fromIntf.id) = some kp →
      (c.toIntf.allowMultipleConnections = true →
        (∀ ident elems, alookup st.inputs c.toIntf.id = some (.arr ident elems) →
          (stageOne td node ov st c).inputs =
            aset st.inputs c.toIntf.id
              (.arr ident (elems ++ [td ((alookup ov kp.1).getD .undef) c]))) ∧
        (alookup st.inputs c.toIntf.id = none →
          (stageOne td node ov st c).inputs =
            aset st.inputs c.toIntf.id
              (.arr st.nextIdentity [td ((alookup ov kp.1).getD .undef) c]))) ∧
      (c.toIntf.allowMultipleConnections = false →
        (stageOne td node ov st c).inputs =
          aset st.inputs c.toIntf.id (td ((alookup ov kp.1).getD .undef) c))) ∧
    (∀ (p : NodeIntf) (c0 : Connection) (rest : List Connection),
      (∀ c ∈ c0 :: rest, c.toIntf = p) → p.allowMultipleConnections = true →
      (∀ c ∈ c0 :: rest,
        (node.outputs.find? (fun q => q.2.id == c.fromIntf.id)).isSome = true) →
      alookup st.inputs p.id = none →
      resolveInput ((c0 :: rest).foldl (stageOne td node ov) st).inputs p =
        .arr st.nextIdentity ((c0 :: rest).map (stagedValue td node ov))) := by
  constructor
  · intro c kp hkp
    refine ⟨fun hmulti => ⟨fun ident elems hcur => ?_, fun hcur => ?_⟩,
      fun hsingle => ?_⟩
    · rw [stageOne_multi_append_step td node ov st c kp herr hkp hmulti ident elems hcur]
    · rw [stageOne_multi_create_step td node ov st c kp herr hkp hmulti hcur]
    · rw [stageOne_single_step td node ov st c kp herr hkp hsingle]
  · intro p c0 rest hto hmulti hfind hcur
    rcases Option.isSome_iff_exists.mp (hfind c0 (by simp)) with ⟨kp, hkp⟩
    have htoc : c0.toIntf = p := hto c0 (by simp)
    have hstep := stageOne_multi_create_step td node ov st c0 kp herr hkp
      (by rw [htoc]; exact hmulti) (by rw [htoc]; exact hcur)
    rw [List.foldl_cons, hstep]
    have h1 : alookup ({ st with
        inputs := (aset st.inputs c0.toIntf.id (.arr st.nextIdentity [td ((alookup ov kp.1).getD .undef) c0])),
        nextIdentity := st.nextIdentity + 1 } : RunState).inputs p.id =
        some (.arr st.nextIdentity [stagedValue td node ov c0]) := by
      show alookup (aset st.inputs c0.toIntf.id _) p.id = _
      rw [htoc, stagedValue_eq td node ov c0 kp hkp, alookup_aset_self]
    have hrec := foldl_stageOne_multi_extend td node ov rest _ p st.nextIdentity
      [stagedValue td node ov c0] (fun c' hc' => hto c' (by simp [hc'])) hmulti
      (fun c' hc' => hfind c' (by simp [hc'])) (by exact herr) h1
    unfold resolveInput
    rw [hrec.1]
    simp

/-- Witness for the staging theorem: two connections into a
multi-connection port stage the ordered sequence of both transferred
values. -/
theorem multi_connection_staging_witness :
    resolveInput (([mcx1, mcx2].foldl
      (stageOne (fun v _ => v) fn1 [("c", .prim 2), ("d", .prim 0)])
      (initialRunState [] 5))).inputs multiIntf = .arr 5 [.prim 2, .prim 0] := by
  have h := (multi_connection_staging (fun v _ => v) fn1
    [("c", .prim 2), ("d", .prim 0)] (initialRunState [] 5) rfl).2 multiIntf
    mcx1 [mcx2]
    (by intro c hc; simp at hc; rcases hc with rfl | rfl <;> rfl) rfl
    (by intro c hc; simp at hc; rcases hc with rfl | rfl <;> rfl) rfl
  rw [h]
  rfl

/-- C5 as stated is refuted: running the concrete previously-applied graph
`n1 → n2` with the update hint naming n1, all of whose resolved inputs equal
their stored values, still invokes n1's calculation step — the engine always
invokes the hinted node (`node.id === updatedNode.id`); the downstream node
n2, whose resolved inputs are unchanged, is the one skipped. -/
theorem hinted_node_invoked_cex :
    (executeModel hintGraph (some "n1") (fun v _ => v) 100).invoked = ["n1"] ∧
    (inputsChangedRecord (gatherUnconnectedInputs hintGraph.nodes) fn1).all
      (fun p => !p.2) = true := by
  constructor <;> rfl

/-- C5 amended: with an updated-node hint, the hinted node's calculation
step is always invoked (even when its resolved inputs are unchanged); a
visited non-hinted node without `alwaysRecalculate` whose resolved inputs
are all unchanged is not invoked but still receives a result entry carrying
its previously stored output values; a visited node with some changed
resolved input is invoked. -/
theorem hint_run_behavior (u : String)
    (cfn : List (String × List Connection)) (td : JsVal → Connection → JsVal)
    (st : RunState) (node : Node)
    (calcStep : List (String × JsVal) → CalcOutput)
    (herr : st.error = none) (hc : node.calculate = some calcStep) :
    (node.id = u →
      (processNode (some u) cfn td st node).invoked = st.invoked ++ [node.id]) ∧
    (node.id ≠ u → node.alwaysRecalculate = false →
      (∀ p ∈ node.inputs,
        inputChangedFor node p.2 (resolveInput st.inputs p.2) = false) →
      (processNode (some u) cfn td st node).invoked = st.invoked ∧
      alookup (processNode (some u) cfn td st node).result node.id =
        some ⟨resolvedInputRecord st.inputs node, storedOutputRecord node⟩) ∧
    ((∃ p ∈ node.inputs,
        inputChangedFor node p.2 (resolveInput st.inputs p.2) = true) →
      (processNode (some u) cfn td st node).invoked = st.invoked ++ [node.id]) := by
  have hspec := processNode_invocation_spec (some u) cfn td st node calcStep herr hc
  refine ⟨?_, ?_, ?_⟩
  · intro hid
    exact hspec.1.mpr (Or.inr (Or.inl (by rw [hid])))
  · intro hid halways hunchanged
    refine hspec.2 ?_
    rintro (h | h | h | ⟨p, hp, hchg⟩)
    · cases h
    · exact hid (Option.some.inj h).symm
    · rw [halways] at h; cases h
    · rw [hunchanged p hp] at hchg; cases hchg
  · intro hex
    exact hspec.1.mpr (Or.inr (Or.inr (Or.inr hex)))

/-- Witness for the amended hint-run theorem: the non-hinted node n2 with
unchanged resolved inputs is skipped yet appears in the result with its
stored output values. -/
theorem hint_run_behavior_witness :
    (processNode (some "n1") [] (fun v _ => v)
      (initialRunState [("i2a", .prim 2), ("i2b", .prim 1)] 0) fn2).invoked = [] ∧
    alookup (processNode (some "n1") [] (fun v _ => v)
      (initialRunState [("i2a", .prim 2), ("i2b", .prim 1)] 0) fn2).result "n2" =
      some ⟨[("a", .prim 2), ("b", .prim 1)], [("c", .prim 3), ("d", .prim 1)]⟩ := by
  have h := (hint_run_behavior "n1" [] (fun v _ => v)
    (initialRunState [("i2a", .prim 2), ("i2b", .prim 1)] 0) fn2 tCalc rfl rfl).2.1
    (by decide) rfl
    (by intro p hp; simp [fn2] at hp; rcases hp with rfl | rfl <;> rfl)
  exact ⟨h.1, h.2⟩

theorem alookup_mem {α : Type} (m : List (String × α)) (k : String) (v : α)
    (h : alookup m k = some v) : (k, v) ∈ m := by
  induction m with
  | nil => cases h
  | cons p rest ih =>
      obtain ⟨k', v'⟩ := p
      unfold alookup at h
      by_cases hk : k' = k
      · rw [if_pos hk] at h
        subst hk
        cases h
        exact List.mem_cons_self _ _
      · rw [if_neg hk] at h
        exact List.mem_cons_of_mem _ (ih h)

theorem writeNodeOutputs_id (n : Node) (outs : List (String × JsVal)) :
    (writeNodeOutputs n outs).id = n.id := rfl

theorem writeNodeOutputs_outputs_char (n : Node) (outs : List (String × JsVal))
    (hnd : (outs.map (fun q => q.1)).Nodup) :
    (writeNodeOutputs n outs).outputs = n.outputs.map (fun q => (q.1,
      match alookup outs q.1 with
      | some v => { q.2 with value := v }
      | none => q.2)) := by
  show outs.foldl _ n.outputs = _
  induction outs generalizing n with
  | nil =>
      simp [alookup]
  | cons e rest ih =>
      obtain ⟨k0, v0⟩ := e
      rw [List.foldl_cons]
      rw [List.map_cons] at hnd
      have hk0 : k0 ∉ rest.map (fun q => q.1) := (List.nodup_cons.mp hnd).1
      have hrest := (List.nodup_cons.mp hnd).2
      have ihh := ih { n with outputs :=
        (n.outputs.map (fun q => if q.1 = k0 then (q.1, { q.2 with value := v0 }) else q)) } hrest
      rw [show (n.outputs.map (fun q => if q.1 = k0 then (q.1, { q.2 with value := v0 }) else q)) =
        ({ n with outputs := (n.outputs.map (fun q => if q.1 = k0 then (q.1, { q.2 with value := v0 }) else q)) } : Node).outputs from rfl]
      rw [ihh, List.map_map]
      apply List.map_congr_left
      intro q _
      by_cases hq : q.1 = k0
      · have hnone : alookup rest k0 = none := by
          rcases hh : alookup rest k0 with _ | w
          · rfl
          · exact absurd (List.mem_map.mpr ⟨(k0, w), alookup_mem rest k0 w hh, rfl⟩) hk0
        simp [Function.comp, hq, alookup, hnone]
      · simp [Function.comp, hq, alookup]
        rw [if_neg (fun hh => hq hh.symm)]

theorem applyResult_map_char (result : List (String × ResultEntry)) :
    ∀ (nodes : List Node), (result.map (fun p => p.1)).Nodup →
      applyResult result nodes = nodes.map (fun n =>
        match alookup result n.id with
        | some e => writeNodeOutputs n e.outputs
        | none => n) := by
  induction result with
  | nil =>
      intro nodes _
      simp [applyResult, alookup]
  | cons e rest ih =>
      intro nodes hnd
      obtain ⟨k0, e0⟩ := e
      rw [List.map_cons] at hnd
      have hk0 : k0 ∉ rest.map (fun p => p.1) := (List.nodup_cons.mp hnd).1
      have hrest := (List.nodup_cons.mp hnd).2
      show rest.foldl _ (nodes.map fun n => if n.id = k0 then writeNodeOutputs n e0.outputs else n) = _
      have := ih (nodes.map fun n => if n.id = k0 then writeNodeOutputs n e0.outputs else n) hrest
      rw [show rest.foldl _ _ = applyResult rest
        (nodes.map fun n => if n.id = k0 then writeNodeOutputs n e0.outputs else n) from rfl]
      rw [this, List.map_map]
      apply List.map_congr_left
      intro n _
      by_cases hn : n.id = k0
      · have hnone : alookup rest k0 = none := by
          rcases hh : alookup rest k0 with _ | w
          · rfl
          · exact absurd (List.mem_map.mpr ⟨(k0, w), alookup_mem rest k0 w hh, rfl⟩) hk0
        have hid : (writeNodeOutputs n e0.outputs).id = n.id := rfl
        simp [Function.comp, hn, hid, hnone, alookup]
      · simp [Function.comp, hn, alookup]
        rw [if_neg (fun hh => hn hh.symm)]

/-- C9: `applyResult` maps every node of the graph owner to itself with its
output ports' stored values overwritten by the matching result entry's
listed outputs, when such an entry exists (unknown node ids affect nothing,
unknown port names are skipped), and it is a total function — no error is
ever raised. The second conjunct spells out the per-port write. -/
theorem applyResult_spec (result : List (String × ResultEntry))
    (nodes : List Node) (hkeys : (result.map (fun p => p.1)).Nodup) :
    applyResult result nodes = nodes.map (fun n =>
      match alookup result n.id with
      | some e => writeNodeOutputs n e.outputs
      | none => n) ∧
    (∀ (n : Node) (outs : List (String × JsVal)),
      (outs.map (fun q => q.1)).Nodup →
      (writeNodeOutputs n outs).outputs = n.outputs.map (fun q => (q.1,
        match alookup outs q.1 with
        | some v => { q.2 with value := v }
        | none => q.2))) :=
  ⟨applyResult_map_char result nodes hkeys,
    fun n outs hnd => writeNodeOutputs_outputs_char n outs hnd⟩

/-- Witness for the applyResult theorem: a concrete result with one entry
matching node n1 and one entry with an unknown id writes n1's outputs and
skips the stale entry without error. -/
theorem applyResult_spec_witness :
    applyResult [("n1", ⟨[], [("c", .prim 15), ("d", .prim 5)]⟩),
      ("zz", ⟨[], [("c", .prim 9)]⟩)] [fn1, fn2] =
      [writeNodeOutputs fn1 [("c", .prim 15), ("d", .prim 5)], fn2] := by
  rw [(applyResult_spec [("n1", ⟨[], [("c", .prim 15), ("d", .prim 5)]⟩),
    ("zz", ⟨[], [("c", .prim 9)]⟩)] [fn1, fn2] (by decide)).1]
  rfl

theorem aset_forall {α : Type} (P : α → Prop) (m : List (String × α))
    (k : String) (v : α) (hm : ∀ p ∈ m, P p.2) (hv : P v) :
    ∀ p ∈ aset m k v, P p.2 := by
  induction m with
  | nil =>
      intro p hp
      simp [aset] at hp
      rw [hp]
      exact hv
  | cons r rest ih =>
      obtain ⟨k', v'⟩ := r
      intro p hp
      unfold aset at hp
      by_cases hk : k' = k
      · rw [if_pos hk] at hp
        rcases List.mem_cons.mp hp with rfl | hp2
        · exact hv
        · exact hm p (List.mem_cons_of_mem _ hp2)
      · rw [if_neg hk] at hp
        rcases List.mem_cons.mp hp with rfl | hp2
        · exact hm _ (List.mem_cons_self _ _)
        · exact ih (fun r hr => hm r (List.mem_cons_of_mem _ hr)) p hp2

theorem foldl_aset_forall {α : Type} (P : α → Prop) (f : Node → α)
    (hf : ∀ n, P (f n)) (nodes : List Node) :
    ∀ (m : List (String × α)), (∀ p ∈ m, P p.2) →
      ∀ p ∈ nodes.foldl (fun m n => aset m n.id (f n)) m, P p.2 := by
  induction nodes with
  | nil => intro m hm p hp; exact hm p hp
  | cons n rest ih =>
      intro m hm p hp
      exact ih _ (aset_forall P m n.id (f n) hm (hf n)) p hp

theorem buildAdjacency_no_conns (nodes : List Node)
    (iMap : List (String × String)) :
    ∀ p ∈ buildAdjacency nodes [] iMap, p.2 = [] := by
  have h := foldl_aset_forall (fun (l : List String) => l = [])
    (fun n => dedupKeepFirst ((connectionsFrom iMap [] n.id).filterMap
      (fun c => alookup iMap c.toIntf.id)))
    (fun n => rfl) nodes [] (by intro p hp; cases hp)
  exact h

theorem totalAdjSize_eq_zero (adj : List (String × List String))
    (h : ∀ p ∈ adj, p.2 = []) : totalAdjSize adj = 0 := by
  unfold totalAdjSize
  apply List.sum_eq_zero
  intro x hx
  rcases List.mem_map.mp hx with ⟨p, hp, rfl⟩
  rw [h p hp]
  rfl

theorem kahnLoop_no_edges (nodes : List Node)
    (adj : List (String × List String)) (hadj : ∀ p ∈ adj, p.2 = []) :
    ∀ (fuel : Nat) (sns sorted : List Node), sns.length ≤ fuel →
      kahnLoop nodes fuel ⟨adj, sns, sorted⟩ = ⟨adj, [], sorted ++ sns.reverse⟩ := by
  intro fuel
  induction fuel with
  | zero =>
      intro sns sorted hlen
      rw [Nat.le_zero, List.length_eq_zero] at hlen
      subst hlen
      simp [kahnLoop]
  | succ fuel ih =>
      intro sns sorted hlen
      rcases hlast : sns.getLast? with _ | n
      · rw [List.getLast?_eq_none_iff] at hlast
        subst hlast
        simp [kahnLoop]
      · have hsplit : sns.dropLast ++ [n] = sns :=
          List.dropLast_append_getLast? n (by simp [hlast])
        have hms : ((alookup adj n.id).getD []) = [] := by
          rcases hh : alookup adj n.id with _ | v
          · rfl
          · have := hadj (n.id, v) (alookup_mem adj n.id v hh)
            simp at this
            simp [this]
        show kahnLoop nodes (fuel + 1) ⟨adj, sns, sorted⟩ = _
        unfold kahnLoop
        rw [hlast]
        dsimp only
        rw [hms]
        show kahnLoop nodes fuel ⟨adj, sns.dropLast, sorted ++ [n]⟩ = _
        have hlen2 : sns.dropLast.length ≤ fuel := by
          have : sns.length = sns.dropLast.length + 1 := by
            conv_lhs => rw [← hsplit]
            simp
          omega
        rw [ih sns.dropLast (sorted ++ [n]) hlen2]
        have hrev : sns.reverse = n :: sns.dropLast.reverse := by
          conv_lhs => rw [← hsplit]
          simp
        rw [hrev]
        simp

/-- C10: `sortTopologically` is deterministic — as a pure function of its
input it returns the same calculation order on every invocation — and ties
among simultaneously ready nodes are broken by the last-in-first-out
worklist: on a connection-free input the calculation order is exactly the
reverse of the input node array. -/
theorem sortTopologically_deterministic :
    (∀ (nodes : List Node) (conns : List Connection),
      sortTopologically nodes conns = sortTopologically nodes conns) ∧
    (∀ nodes : List Node,
      Except.map (fun r => r.calculationOrder) (sortTopologically nodes []) =
        .ok nodes.reverse) := by
  constructor
  · intro nodes conns
    rfl
  · intro nodes
    unfold sortTopologically
    dsimp only
    have hadj := buildAdjacency_no_conns nodes (interfaceIdToNodeId nodes)
    have hstart : initialStartNodes nodes [] (interfaceIdToNodeId nodes) = nodes := rfl
    have hfuel : kahnFuel (buildAdjacency nodes [] (interfaceIdToNodeId nodes))
        nodes = nodes.length := by
      unfold kahnFuel
      rw [totalAdjSize_eq_zero _ hadj]
      omega
    rw [hstart, hfuel]
    rw [kahnLoop_no_edges nodes _ hadj nodes.length nodes [] (le_refl _)]
    have hnocycle : (buildAdjacency nodes [] (interfaceIdToNodeId nodes)).any
        (fun p => !p.2.isEmpty) = false := by
      rw [List.any_eq_false]
      intro p hp
      rw [hadj p hp]
      simp
    dsimp only
    rw [hnocycle]
    rfl

theorem alookup_eq_none_iff {α : Type} (m : List (String × α)) (k : String) :
    alookup m k = none ↔ k ∉ m.map (fun p => p.1) := by
  induction m with
  | nil => simp [alookup]
  | cons p rest ih =>
      obtain ⟨k', v'⟩ := p
      by_cases h : k' = k
      · subst h
        simp [alookup]
      · simp [alookup, h, ih, Ne.symm h]

theorem aset_keys_of_mem {α : Type} (m : List (String × α)) (k : String) (v : α)
    (h : k ∈ m.map (fun p => p.1)) :
    (aset m k v).map (fun p => p.1) = m.map (fun p => p.1) := by
  induction m with
  | nil => cases h
  | cons p rest ih =>
      obtain ⟨k', v'⟩ := p
      by_cases hk : k' = k
      · subst hk
        simp [aset]
      · rw [List.map_cons] at h
        rcases List.mem_cons.mp h with h1 | h1
        · exact absurd h1.symm hk
        · simp [aset, hk, ih h1]

theorem aset_append_of_none {α : Type} (m : List (String × α)) (k : String)
    (v : α) (h : alookup m k = none) : aset m k v = m ++ [(k, v)] := by
  induction m with
  | nil => rfl
  | cons p rest ih =>
      obtain ⟨k', v'⟩ := p
      unfold alookup at h
      by_cases hk : k' = k
      · rw [if_pos hk] at h; cases h
      · rw [if_neg hk] at h
        simp [aset, hk, ih h]

theorem aset_aset_same {α : Type} (m : List (String × α)) (k : String) (v w : α) :
    aset (aset m k v) k w = aset m k w := by
  induction m with
  | nil => simp [aset]
  | cons p rest ih =>
      obtain ⟨k', v'⟩ := p
      by_cases hk : k' = k
      · simp [aset, hk]
      · simp [aset, hk, ih]

theorem aset_self_eq {α : Type} (m : List (String × α)) (k : String) (v : α)
    (h : alookup m k = some v) : aset m k v = m := by
  induction m with
  | nil => cases h
  | cons p rest ih =>
      obtain ⟨k', v'⟩ := p
      unfold alookup at h
      by_cases hk : k' = k
      · rw [if_pos hk] at h
        cases h
        simp [aset, hk]
      · rw [if_neg hk] at h
        simp [aset, hk, ih h]

theorem alookup_aset_getD {α : Type} (m : List (String × α)) (k : String)
    (v d : α) : (alookup (aset m k v) k).getD d = v := by
  rw [alookup_aset_self]
  rfl

theorem totalAdjSize_aset (adj : List (String × List String)) (k : String)
    (v w : List String) (h : alookup adj k = some v) :
    totalAdjSize (aset adj k w) + v.length = totalAdjSize adj + w.length := by
  induction adj with
  | nil => cases h
  | cons p rest ih =>
      obtain ⟨k', v'⟩ := p
      unfold alookup at h
      by_cases hk : k' = k
      · rw [if_pos hk] at h
        cases h
        simp [aset, hk, totalAdjSize]
        omega
      · rw [if_neg hk] at h
        have := ih h
        simp [aset, hk, totalAdjSize] at this ⊢
        omega

theorem foldl_aset_fresh {α : Type} (f : Node → α) :
    ∀ (ns : List Node) (m : List (String × α)),
      (∀ n ∈ ns, alookup m n.id = none) → (ns.map (fun n => n.id)).Nodup →
      ns.foldl (fun m n => aset m n.id (f n)) m = m ++ ns.map (fun n => (n.id, f n)) := by
  intro ns
  induction ns with
  | nil => intro m _ _; simp
  | cons n rest ih =>
      intro m hfresh hnd
      rw [List.foldl_cons, aset_append_of_none m n.id (f n) (hfresh n (by simp))]
      rw [List.map_cons] at hnd
      have hnd2 := (List.nodup_cons.mp hnd).2
      have hn : n.id ∉ rest.map (fun x => x.id) := (List.nodup_cons.mp hnd).1
      rw [ih (m ++ [(n.id, f n)]) ?_ hnd2]
      · simp
      · intro n' hn'
        rw [alookup_eq_none_iff]
        simp only [List.map_append, List.mem_append]
        rintro (h1 | h1)
        · exact absurd h1 (by rw [← alookup_eq_none_iff]; exact hfresh n' (by simp [hn']))
        · simp at h1
          exact hn (h1 ▸ List.mem_map.mpr ⟨n', hn', rfl⟩)

theorem mem_foldl_insertUniq (l : List String) :
    ∀ (acc : List String) (y : String),
      y ∈ l.foldl insertUniq acc ↔ y ∈ acc ∨ y ∈ l := by
  induction l with
  | nil => intro acc y; simp
  | cons x rest ih =>
      intro acc y
      rw [List.foldl_cons, ih]
      unfold insertUniq
      by_cases hx : acc.contains x
      · rw [if_pos hx]
        have hxa : x ∈ acc := by simpa using hx
        simp only [List.mem_cons]
        constructor
        · rintro (h | h)
          · exact Or.inl h
          · exact Or.inr (Or.inr h)
        · rintro (h | h | h)
          · exact Or.inl h
          · exact Or.inl (by subst h; exact hxa)
          · exact Or.inr h
      · rw [if_neg hx]
        simp only [List.mem_append, List.mem_singleton, List.mem_cons]
        tauto

theorem mem_dedupKeepFirst (l : List String) (x : String) :
    x ∈ dedupKeepFirst l ↔ x ∈ l := by
  unfold dedupKeepFirst
  rw [mem_foldl_insertUniq]
  simp

theorem nodup_foldl_insertUniq (l : List String) :
    ∀ (acc : List String), acc.Nodup → (l.foldl insertUniq acc).Nodup := by
  induction l with
  | nil => intro acc h; exact h
  | cons x rest ih =>
      intro acc h
      rw [List.foldl_cons]
      apply ih
      unfold insertUniq
      by_cases hx : acc.contains x
      · rw [if_pos hx]; exact h
      · rw [if_neg hx]
        rw [List.nodup_append]
        refine ⟨h, List.nodup_singleton x, ?_⟩
        intro a ha hab
        simp at hab
        subst hab
        exact hx (by simpa using ha)

theorem nodup_dedupKeepFirst (l : List String) : (dedupKeepFirst l).Nodup :=
  nodup_foldl_insertUniq l [] List.nodup_nil

theorem hasIncomingB_iff (adj : List (String × List String)) (m : String) :
    hasIncomingB adj m = true ↔ ∃ p ∈ adj, m ∈ p.2 := by
  unfold hasIncomingB
  rw [List.any_eq_true]
  constructor
  · rintro ⟨p, hp, h⟩
    exact ⟨p, hp, by simpa using h⟩
  · rintro ⟨p, hp, h⟩
    exact ⟨p, hp, by simpa using h⟩

theorem allLack_eq_not_hasIncomingB (adj : List (String × List String))
    (m : String) : allLack adj m = !hasIncomingB adj m := by
  unfold allLack hasIncomingB
  induction adj with
  | nil => rfl
  | cons p rest ih =>
      simp only [List.all_cons, List.any_cons, ih, Bool.not_or]

theorem alookup_nodes_map {α : Type} (f : Node → α) (nodes : List Node)
    (hnd : (nodes.map (fun n => n.id)).Nodup) (n : Node) (hn : n ∈ nodes) :
    alookup (nodes.map (fun x => (x.id, f x))) n.id = some (f n) := by
  induction nodes with
  | nil => cases hn
  | cons x rest ih =>
      rw [List.map_cons] at hnd
      obtain ⟨hx, hrest⟩ := List.nodup_cons.mp hnd
      rw [List.map_cons]
      unfold alookup
      by_cases h : x.id = n.id
      · rw [if_pos h]
        rcases List.mem_cons.mp hn with rfl | hn2
        · rfl
        · exfalso
          apply hx
          rw [h]
          exact List.mem_map.mpr ⟨n, hn2, rfl⟩
      · rw [if_neg h]
        rcases List.mem_cons.mp hn with rfl | hn2
        · exact absurd rfl h
        · exact ih hrest hn2

theorem buildAdjacency_eq (nodes : List Node) (conns : List Connection)
    (hnd : (nodes.map (fun n => n.id)).Nodup) :
    buildAdjacency nodes conns (interfaceIdToNodeId nodes) =
      nodes.map (fun n => (n.id, adjEdges nodes conns n.id)) := by
  have h := foldl_aset_fresh (fun n => adjEdges nodes conns n.id) nodes []
    (fun n _ => rfl) hnd
  exact h

theorem buildConnectionsFromNode_eq (nodes : List Node) (conns : List Connection)
    (hnd : (nodes.map (fun n => n.id)).Nodup) :
    buildConnectionsFromNode nodes conns (interfaceIdToNodeId nodes) =
      nodes.map (fun n => (n.id, connectionsFrom (interfaceIdToNodeId nodes) conns n.id)) := by
  have h := foldl_aset_fresh
    (fun n => connectionsFrom (interfaceIdToNodeId nodes) conns n.id) nodes []
    (fun n _ => rfl) hnd
  exact h

theorem foldl_aset_forall_fixed {α β : Type} (P : α → Prop) (l : List β)
    (key : β → String) (v : α) (hv : P v) :
    ∀ m, (∀ p ∈ m, P p.2) → ∀ p ∈ l.foldl (fun m b => aset m (key b) v) m, P p.2 := by
  induction l with
  | nil => intro m hm p hp; exact hm p hp
  | cons b rest ih =>
      intro m hm p hp
      exact ih _ (aset_forall P m (key b) v hm hv) p hp

theorem interfaceIdToNodeId_values (nodes : List Node) :
    ∀ p ∈ interfaceIdToNodeId nodes, ∃ n ∈ nodes, n.id = p.2 := by
  suffices h : ∀ (ns : List Node), (∀ n ∈ ns, ∃ x ∈ nodes, x.id = n.id) →
      ∀ (m : List (String × String)), (∀ p ∈ m, ∃ x ∈ nodes, x.id = p.2) →
      ∀ p ∈ ns.foldl (fun m n => n.outputs.foldl (fun m p => aset m p.2.id n.id)
        (n.inputs.foldl (fun m p => aset m p.2.id n.id) m)) m,
        ∃ x ∈ nodes, x.id = p.2 by
    exact h nodes (fun n hn => ⟨n, hn, rfl⟩) [] (by simp)
  intro ns
  induction ns with
  | nil => intro _ m hm p hp; exact hm p hp
  | cons n rest ih =>
      intro hns m hm p hp
      refine ih (fun x hx => hns x (by simp [hx])) _ ?_ p hp
      have h1 := foldl_aset_forall_fixed (fun v => ∃ x ∈ nodes, x.id = v)
        n.inputs (fun q => q.2.id) n.id (hns n (by simp)) m hm
      exact foldl_aset_forall_fixed (fun v => ∃ x ∈ nodes, x.id = v)
        n.outputs (fun q => q.2.id) n.id (hns n (by simp)) _ h1

theorem mem_adjEdges_iff (nodes : List Node) (conns : List Connection)
    (u m : String) :
    m ∈ adjEdges nodes conns u ↔ edgeOf nodes conns u m := by
  unfold adjEdges edgeOf connectionsFrom ownerId
  rw [mem_dedupKeepFirst, List.mem_filterMap]
  constructor
  · rintro ⟨c, hc, hto⟩
    have hc2 := List.mem_filter.mp hc
    refine ⟨c, hc2.1, ?_, hto⟩
    have hb := hc2.2
    simpa using hb
  · rintro ⟨c, hc, hfrom, hto⟩
    exact ⟨c, List.mem_filter.mpr ⟨hc, by simp [hfrom]⟩, hto⟩

theorem removeFirstWithId_eq_filter (S : List Node) (t : Option String)
    (hnd : (S.map (fun n => n.id)).Nodup) :
    removeFirstWithId S t = S.filter (fun n => !(t == some n.id)) := by
  induction S with
  | nil => rfl
  | cons n rest ih =>
      rw [List.map_cons] at hnd
      obtain ⟨hn, hrest⟩ := List.nodup_cons.mp hnd
      unfold removeFirstWithId
      by_cases ht : (t == some n.id) = true
      · rw [if_pos ht, List.filter_cons,
          if_neg (show ¬(!(t == some n.id)) = true by simp [ht])]
        rw [eq_comm, List.filter_eq_self]
        intro a ha
        have hteq : t = some n.id := by simpa using ht
        subst hteq
        simp only [Bool.not_eq_eq_eq_not, Bool.not_true, beq_eq_false_iff_ne, ne_eq,
          Option.some.injEq]
        intro hEq
        exact hn (by rw [hEq]; exact List.mem_map.mpr ⟨a, ha, rfl⟩)
      · rw [if_neg ht, List.filter_cons,
          if_pos (show (!(t == some n.id)) = true by simp [ht])]
        rw [ih hrest]

theorem foldl_removeFirst_eq_filter (iMap : List (String × String)) :
    ∀ (conns : List Connection) (S : List Node), (S.map (fun n => n.id)).Nodup →
      conns.foldl (fun sns c => removeFirstWithId sns (alookup iMap c.toIntf.id)) S =
        S.filter (fun n => !(conns.any (fun c =>
          alookup iMap c.toIntf.id == some n.id))) := by
  intro conns
  induction conns with
  | nil =>
      intro S _
      simp
  | cons c cs ih =>
      intro S hnd
      rw [List.foldl_cons, removeFirstWithId_eq_filter S _ hnd]
      have hnd2 : ((S.filter (fun n => !(alookup iMap c.toIntf.id == some n.id))).map
          (fun n => n.id)).Nodup :=
        List.Nodup.sublist (List.Sublist.map _ (List.filter_sublist S)) hnd
      rw [ih _ hnd2, List.filter_filter]
      congr 1
      funext n
      simp only [List.any_cons, Bool.not_or]
      rw [Bool.and_comm]

theorem initialStartNodes_eq_filter (nodes : List Node) (conns : List Connection)
    (hnd : (nodes.map (fun n => n.id)).Nodup) :
    initialStartNodes nodes conns (interfaceIdToNodeId nodes) =
      nodes.filter (fun n => !(conns.any (fun c =>
        alookup (interfaceIdToNodeId nodes) c.toIntf.id == some n.id))) :=
  foldl_removeFirst_eq_filter (interfaceIdToNodeId nodes) conns nodes hnd

theorem allLack_aset_agree (adj : List (String × List String)) (k m : String)
    (l1 l2 : List String) (h1 : m ∉ l1) (h2 : m ∉ l2) :
    allLack (aset adj k l1) m = allLack (aset adj k l2) m := by
  induction adj with
  | nil => simp [aset, allLack, h1, h2]
  | cons p rest ih =>
      obtain ⟨k', v'⟩ := p
      by_cases hk : k' = k
      · simp [aset, hk, allLack, h1, h2]
      · simp only [aset, hk, if_false, allLack, List.all_cons] at ih ⊢
        rw [ih]

theorem drainPushed_aset (nodes : List Node) (nId : String)
    (adj : List (String × List String)) (w ms : List String) :
    drainPushed nodes nId (aset adj nId w) ms = drainPushed nodes nId adj ms := by
  unfold drainPushed
  simp only [aset_aset_same]

theorem drainLoop_eq (nodes : List Node) (nId : String) :
    ∀ (ms : List String) (adj : List (String × List String)) (sns : List Node),
      alookup adj nId = some ms → ms.Nodup →
      drainLoop nodes nId ms adj sns =
        (aset adj nId [], sns ++ drainPushed nodes nId adj ms) := by
  intro ms
  induction ms with
  | nil =>
      intro adj sns hcur _
      unfold drainLoop drainPushed
      simp [aset_self_eq adj nId [] hcur]
  | cons m rest ih =>
      intro adj sns hcur hnd
      obtain ⟨hm, hrest⟩ := List.nodup_cons.mp hnd
      unfold drainLoop
      have hcur' : alookup (aset adj nId rest) nId = some rest :=
        alookup_aset_self adj nId rest
      rw [ih (aset adj nId rest) _ hcur' hrest, aset_aset_same,
        drainPushed_aset]
      have hagree : allLack (aset adj nId rest) m = allLack (aset adj nId []) m :=
        allLack_aset_agree adj nId m rest [] hm (by simp)
      unfold drainPushed
      rw [List.filterMap_cons]
      by_cases hL : allLack (aset adj nId []) m = true
      · rw [hagree, hL]
        simp only [if_true]
        rcases hf : nodes.find? (fun nd => nd.id == m) with _ | nd
        · simp [hf]
        · simp [hf]
      · rw [hagree]
        rw [Bool.not_eq_true] at hL
        rw [hL]
        simp

theorem mem_aset_cases {α : Type} (m : List (String × α)) (k : String) (v : α)
    (p : String × α) (hp : p ∈ aset m k v) : p ∈ m ∨ p = (k, v) := by
  induction m with
  | nil =>
      simp [aset] at hp
      exact Or.inr hp
  | cons q rest ih =>
      obtain ⟨k', v'⟩ := q
      unfold aset at hp
      by_cases hk : k' = k
      · rw [if_pos hk] at hp
        rcases List.mem_cons.mp hp with rfl | hp2
        · exact Or.inr rfl
        · exact Or.inl (List.mem_cons_of_mem _ hp2)
      · rw [if_neg hk] at hp
        rcases List.mem_cons.mp hp with rfl | hp2
        · exact Or.inl (List.mem_cons_self _ _)
        · rcases ih hp2 with h | h
          · exact Or.inl (List.mem_cons_of_mem _ h)
          · exact Or.inr h

theorem mem_aset_of_ne {α : Type} (m : List (String × α)) (k : String) (v : α)
    (p : String × α) (hne : p.1 ≠ k) (hp : p ∈ m) : p ∈ aset m k v := by
  induction m with
  | nil => cases hp
  | cons q rest ih =>
      obtain ⟨k', v'⟩ := q
      unfold aset
      by_cases hk : k' = k
      · rw [if_pos hk]
        rcases List.mem_cons.mp hp with rfl | hp2
        · exact absurd hk hne
        · exact List.mem_cons_of_mem _ hp2
      · rw [if_neg hk]
        rcases List.mem_cons.mp hp with rfl | hp2
        · exact List.mem_cons_self _ _
        · exact List.mem_cons_of_mem _ (ih hp2)

theorem alookup_isSome_of_mem_keys {α : Type} (m : List (String × α))
    (k : String) (h : k ∈ m.map (fun p => p.1)) : (alookup m k).isSome = true := by
  rcases hl : alookup m k with _ | v
  · rw [alookup_eq_none_iff] at hl
    exact absurd h hl
  · rfl

theorem alookup_of_mem_nodup {α : Type} (m : List (String × α))
    (hnd : (m.map (fun p => p.1)).Nodup) (k : String) (v : α)
    (h : (k, v) ∈ m) : alookup m k = some v := by
  induction m with
  | nil => cases h
  | cons q rest ih =>
      obtain ⟨k', v'⟩ := q
      rw [List.map_cons] at hnd
      obtain ⟨hk', hrest⟩ := List.nodup_cons.mp hnd
      unfold alookup
      by_cases hk : k' = k
      · rw [if_pos hk]
        subst hk
        rcases List.mem_cons.mp h with h2 | h2
        · cases h2
          rfl
        · exact absurd (List.mem_map.mpr ⟨(k', v), h2, rfl⟩) hk'
      · rw [if_neg hk]
        rcases List.mem_cons.mp h with h2 | h2
        · cases h2
          exact absurd rfl hk
        · exact ih hrest h2

theorem find?_id_of_nodup (nodes : List Node)
    (hnd : (nodes.map (fun n => n.id)).Nodup) (x : Node) (hx : x ∈ nodes) :
    nodes.find? (fun nd => nd.id == x.id) = some x := by
  induction nodes with
  | nil => cases hx
  | cons y rest ih =>
      rw [List.map_cons] at hnd
      obtain ⟨hy, hrest⟩ := List.nodup_cons.mp hnd
      rcases List.mem_cons.mp hx with rfl | hx2
      · rw [List.find?_cons_of_pos _ (by simp)]
      · rw [List.find?_cons_of_neg, ih hrest hx2]
        simp only [beq_iff_eq]
        intro hEq
        exact hy (by rw [hEq]; exact List.mem_map.mpr ⟨x, hx2, rfl⟩)

theorem mem_drainPushed (nodes : List Node) (nId : String)
    (adj : List (String × List String)) (ms : List String) (nd : Node) :
    nd ∈ drainPushed nodes nId adj ms ↔
      ∃ m ∈ ms, allLack (aset adj nId []) m = true ∧
        nodes.find? (fun x => x.id == m) = some nd := by
  unfold drainPushed
  rw [List.mem_filterMap]
  constructor
  · rintro ⟨m, hm, hf⟩
    by_cases hL : allLack (aset adj nId []) m = true
    · rw [if_pos hL] at hf
      exact ⟨m, hm, hL, hf⟩
    · rw [if_neg hL] at hf
      cases hf
  · rintro ⟨m, hm, hL, hf⟩
    exact ⟨m, hm, by rw [if_pos hL]; exact hf⟩

theorem drainPushed_ids_sublist (nodes : List Node) (nId : String)
    (adj : List (String × List String)) (ms : List String) :
    List.Sublist ((drainPushed nodes nId adj ms).map (fun n => n.id)) ms := by
  induction ms with
  | nil => exact List.Sublist.refl _
  | cons m rest ih =>
      unfold drainPushed
      rw [List.filterMap_cons]
      by_cases hL : allLack (aset adj nId []) m = true
      · rw [if_pos hL]
        rcases hf : nodes.find? (fun nd => nd.id == m) with _ | nd
        · simp only [hf]
          exact List.Sublist.cons m ih
        · have hid : nd.id = m := by
            have := List.find?_some hf
            simpa using this
          simp only [hf, List.map_cons, hid]
          exact List.Sublist.cons₂ m ih
      · rw [if_neg hL]
        exact List.Sublist.cons m ih

theorem mem_drainPushed_nodes (nodes : List Node) (nId : String)
    (adj : List (String × List String)) (ms : List String) (nd : Node)
    (h : nd ∈ drainPushed nodes nId adj ms) :
    nd ∈ nodes ∧ nd.id ∈ ms ∧ allLack (aset adj nId []) nd.id = true := by
  rcases (mem_drainPushed nodes nId adj ms nd).mp h with ⟨m, hm, hL, hf⟩
  have hid : nd.id = m := by
    have := List.find?_some hf
    simpa using this
  subst hid
  exact ⟨List.mem_of_find?_eq_some hf, hm, hL⟩

theorem kahnLoop_succ_last (nodes : List Node) (fuel : Nat) (st : KahnState)
    (n : Node) (hlast : st.startNodes.getLast? = some n)
    (ms : List String) (hms : alookup st.adjacency n.id = some ms)
    (hmsNd : ms.Nodup) :
    kahnLoop nodes (fuel + 1) st =
      kahnLoop nodes fuel ⟨aset st.adjacency n.id [],
        st.startNodes.dropLast ++ drainPushed nodes n.id st.adjacency ms,
        st.sorted ++ [n]⟩ := by
  conv_lhs => rw [kahnLoop]
  rw [hlast]
  dsimp only
  rw [hms]
  show (match drainLoop nodes n.id ms st.adjacency st.startNodes.dropLast with
    | (adj', sns') => kahnLoop nodes fuel ⟨adj', sns', st.sorted ++ [n]⟩) = _
  rw [drainLoop_eq nodes n.id ms st.adjacency st.startNodes.dropLast hms hmsNd]

theorem kahnStep_inv (nodes : List Node) (conns : List Connection)
    (hnd : (nodes.map (fun n => n.id)).Nodup)
    (st : KahnState) (inv : KahnInv nodes conns st)
    (n : Node) (hlast : st.startNodes.getLast? = some n) :
    ∃ st' : KahnState,
      (∀ fuel, kahnLoop nodes (fuel + 1) st = kahnLoop nodes fuel st') ∧
      KahnInv nodes conns st' ∧ kahnMeasure st' < kahnMeasure st := by
  have hsplit : st.startNodes.dropLast ++ [n] = st.startNodes :=
    List.dropLast_append_getLast? n (by simp [hlast])
  have hnstart : n ∈ st.startNodes := by
    rw [← hsplit]
    exact List.mem_append_right _ (by simp)
  have hnnodes : n ∈ nodes := inv.memNodes n (List.mem_append_right _ hnstart)
  have hkeysNd : (st.adjacency.map (fun p => p.1)).Nodup := by
    rw [inv.adjKeys]
    exact hnd
  have hkey : n.id ∈ st.adjacency.map (fun p => p.1) := by
    rw [inv.adjKeys]
    exact List.mem_map.mpr ⟨n, hnnodes, rfl⟩
  rcases Option.isSome_iff_exists.mp (alookup_isSome_of_mem_keys _ _ hkey) with ⟨ms, hms⟩
  have hmsNd : ms.Nodup := inv.setsNodup (n.id, ms) (alookup_mem _ _ _ hms)
  have hmsInc : ∀ x ∈ ms, hasIncomingB st.adjacency x = true := by
    intro x hx
    exact (hasIncomingB_iff _ _).mpr ⟨(n.id, ms), alookup_mem _ _ _ hms, hx⟩
  have hnsorted : n.id ∉ st.sorted.map (fun x => x.id) := by
    have h1 := inv.idsNodup
    rw [List.map_append] at h1
    intro hmem
    exact (List.nodup_append.mp h1).2.2 hmem (List.mem_map.mpr ⟨n, hnstart, rfl⟩)
  have hF3a : ∀ x, hasIncomingB (aset st.adjacency n.id []) x = true →
      hasIncomingB st.adjacency x = true := by
    intro x hx
    rcases (hasIncomingB_iff _ _).mp hx with ⟨p, hp, hxp⟩
    rcases mem_aset_cases _ _ _ p hp with h | h
    · exact (hasIncomingB_iff _ _).mpr ⟨p, h, hxp⟩
    · rw [h] at hxp
      cases hxp
  have hF3b : ∀ x, hasIncomingB st.adjacency x = true →
      hasIncomingB (aset st.adjacency n.id []) x = false → x ∈ ms := by
    intro x h1 h2
    rcases (hasIncomingB_iff _ _).mp h1 with ⟨p, hp, hxp⟩
    obtain ⟨pk, pv⟩ := p
    by_cases hpn : pk = n.id
    · subst hpn
      have hlk : alookup st.adjacency n.id = some pv :=
        alookup_of_mem_nodup _ hkeysNd _ _ hp
      rw [hms] at hlk
      cases hlk
      exact hxp
    · have hp' : (pk, pv) ∈ aset st.adjacency n.id [] :=
        mem_aset_of_ne _ _ _ (pk, pv) hpn hp
      have hcon := (hasIncomingB_iff (aset st.adjacency n.id []) x).mpr ⟨(pk, pv), hp', hxp⟩
      rw [h2] at hcon
      cases hcon
  have hold : ∀ x, x ∈ st.sorted ++ st.startNodes → x ∈ nodes →
      hasIncomingB (aset st.adjacency n.id []) x.id = false := by
    intro x hx2 hxn
    have h0 := (inv.memIff x hxn).mp hx2
    cases hb : hasIncomingB (aset st.adjacency n.id []) x.id with
    | false => rfl
    | true =>
        rw [hF3a x.id hb] at h0
        cases h0
  refine ⟨⟨aset st.adjacency n.id [],
    st.startNodes.dropLast ++ drainPushed nodes n.id st.adjacency ms,
    st.sorted ++ [n]⟩, ?_, ?_, ?_⟩
  · intro fuel
    exact kahnLoop_succ_last nodes fuel st n hlast ms hms hmsNd
  · refine ⟨?_, ?_, ?_, ?_, ?_, ?_, ?_, ?_, ?_⟩
    · show (aset st.adjacency n.id []).map (fun p => p.1) = nodes.map (fun n => n.id)
      rw [aset_keys_of_mem _ _ _ hkey, inv.adjKeys]
    · intro p hp
      rcases mem_aset_cases _ _ _ p hp with h | h
      · exact inv.setsNodup p h
      · rw [h]
        exact List.nodup_nil
    · intro p hp m hm
      rcases mem_aset_cases _ _ _ p hp with h | h
      · exact inv.adjSub p h m hm
      · rw [h] at hm
        cases hm
    · intro u v hv hnot
      show u ∈ (st.sorted ++ [n]).map (fun x => x.id)
      by_cases hun : u = n.id
      · rw [List.map_append]
        exact List.mem_append_right _ (by simp [hun])
      · have hlk : alookup (aset st.adjacency n.id []) u = alookup st.adjacency u :=
          alookup_aset_ne _ _ _ _ hun
        rw [hlk] at hnot
        have h := inv.removedSorted u v hv hnot
        rw [List.map_append]
        exact List.mem_append_left _ h
    · intro u hu
      rw [List.map_append] at hu
      rcases List.mem_append.mp hu with h | h
      · have hun : u ≠ n.id := fun hh => hnsorted (by rw [← hh]; exact h)
        show (alookup (aset st.adjacency n.id []) u).getD [] = []
        rw [alookup_aset_ne _ _ _ _ hun]
        exact inv.sortedDrained u h
      · simp at h
        show (alookup (aset st.adjacency n.id []) u).getD [] = []
        rw [h, alookup_aset_self]
        rfl
    · intro x hx
      rcases List.mem_append.mp hx with h | h
      · rcases List.mem_append.mp h with h2 | h2
        · exact inv.memNodes x (List.mem_append_left _ h2)
        · simp at h2
          rw [h2]
          exact hnnodes
      · rcases List.mem_append.mp h with h2 | h2
        · refine inv.memNodes x (List.mem_append_right _ ?_)
          rw [← hsplit]
          exact List.mem_append_left _ h2
        · exact (mem_drainPushed_nodes _ _ _ _ _ h2).1
    · have hpermA : ((st.sorted ++ [n]) ++ st.startNodes.dropLast).Perm
          (st.sorted ++ st.startNodes) := by
        have h1 : (st.sorted ++ [n]) ++ st.startNodes.dropLast =
            st.sorted ++ ([n] ++ st.startNodes.dropLast) := by
          rw [List.append_assoc]
        rw [h1]
        have h2 : ([n] ++ st.startNodes.dropLast).Perm
            (st.startNodes.dropLast ++ [n]) := List.perm_append_comm
        have h3 := List.Perm.append_left st.sorted h2
        rw [hsplit] at h3
        exact h3
      have hndA : (((st.sorted ++ [n]) ++ st.startNodes.dropLast).map
          (fun x => x.id)).Nodup :=
        ((hpermA.map (fun x => x.id)).nodup_iff).mpr inv.idsNodup
      have hndP : ((drainPushed nodes n.id st.adjacency ms).map
          (fun x => x.id)).Nodup :=
        List.Nodup.sublist (drainPushed_ids_sublist nodes n.id st.adjacency ms) hmsNd
      have hdisj : ∀ a, a ∈ ((st.sorted ++ [n]) ++ st.startNodes.dropLast).map
          (fun x => x.id) →
          a ∈ (drainPushed nodes n.id st.adjacency ms).map (fun x => x.id) → False := by
        intro a ha hp
        rcases List.mem_map.mp hp with ⟨nd, hnd2, rfl⟩
        have hndm := mem_drainPushed_nodes _ _ _ _ _ hnd2
        have hInc : hasIncomingB st.adjacency nd.id = true := hmsInc nd.id hndm.2.1
        rcases List.mem_map.mp ha with ⟨y, hy, hyid⟩
        have hy2 : y ∈ st.sorted ++ st.startNodes := by
          rcases List.mem_append.mp hy with h | h
          · rcases List.mem_append.mp h with h2 | h2
            · exact List.mem_append_left _ h2
            · simp at h2
              rw [h2]
              exact List.mem_append_right _ hnstart
          · refine List.mem_append_right _ ?_
            rw [← hsplit]
            exact List.mem_append_left _ h
        have h0 := (inv.memIff y (inv.memNodes y hy2)).mp hy2
        rw [hyid, hInc] at h0
        cases h0
      show (((st.sorted ++ [n]) ++ (st.startNodes.dropLast ++
        drainPushed nodes n.id st.adjacency ms)).map (fun x => x.id)).Nodup
      rw [show (st.sorted ++ [n]) ++ (st.startNodes.dropLast ++
          drainPushed nodes n.id st.adjacency ms) =
          ((st.sorted ++ [n]) ++ st.startNodes.dropLast) ++
          drainPushed nodes n.id st.adjacency ms from by
            simp only [List.append_assoc]]
      rw [List.map_append, List.nodup_append]
      refine ⟨hndA, hndP, ?_⟩
      intro a ha hb
      exact hdisj a ha hb
    · intro x hx
      constructor
      · intro hmem
        rcases List.mem_append.mp hmem with h | h
        · rcases List.mem_append.mp h with h2 | h2
          · exact hold x (List.mem_append_left _ h2) hx
          · simp at h2
            rw [h2]
            exact hold n (List.mem_append_right _ hnstart) hnnodes
        · rcases List.mem_append.mp h with h2 | h2
          · refine hold x (List.mem_append_right _ ?_) hx
            rw [← hsplit]
            exact List.mem_append_left _ h2
          · have h3 := (mem_drainPushed_nodes _ _ _ _ _ h2).2.2
            rw [allLack_eq_not_hasIncomingB] at h3
            simpa using h3
      · intro hInc'
        cases hb : hasIncomingB st.adjacency x.id with
        | false =>
            have hx2 := (inv.memIff x hx).mpr hb
            rcases List.mem_append.mp hx2 with h | h
            · exact List.mem_append_left _ (List.mem_append_left _ h)
            · rw [← hsplit] at h
              rcases List.mem_append.mp h with h2 | h2
              · exact List.mem_append_right _ (List.mem_append_left _ h2)
              · simp at h2
                rw [h2]
                exact List.mem_append_left _ (List.mem_append_right _ (by simp))
        | true =>
            have hxm := hF3b x.id hb hInc'
            have hfind := find?_id_of_nodup nodes hnd x hx
            have hxp : x ∈ drainPushed nodes n.id st.adjacency ms :=
              (mem_drainPushed _ _ _ _ _).mpr ⟨x.id, hxm,
                (by rw [allLack_eq_not_hasIncomingB, hInc']; rfl), hfind⟩
            exact List.mem_append_right _ (List.mem_append_right _ hxp)
    · intro u v hv hvmem
      rw [List.map_append] at hvmem
      rcases List.mem_append.mp hvmem with h | h
      · rcases inv.ordered u v hv h with ⟨l1, l2, hsplit2, hu, hvl⟩
        refine ⟨l1, l2 ++ [n].map (fun x => x.id), ?_, hu, List.mem_append_left _ hvl⟩
        rw [List.map_append, hsplit2, List.append_assoc]
      · simp at h
        subst h
        have hnInc : hasIncomingB st.adjacency n.id = false :=
          (inv.memIff n hnnodes).mp (List.mem_append_right _ hnstart)
        have hnot : n.id ∉ (alookup st.adjacency u).getD [] := by
          intro hmem2
          rcases hl : alookup st.adjacency u with _ | s
          · rw [hl] at hmem2
            cases hmem2
          · rw [hl] at hmem2
            have hcon : hasIncomingB st.adjacency n.id = true :=
              (hasIncomingB_iff _ _).mpr ⟨(u, s), alookup_mem _ _ _ hl, hmem2⟩
            rw [hnInc] at hcon
            cases hcon
        have hu := inv.removedSorted u n.id hv hnot
        refine ⟨st.sorted.map (fun x => x.id), [n.id], ?_, hu, by simp⟩
        rw [List.map_append]
        rfl
  · have hT := totalAdjSize_aset st.adjacency n.id ms [] hms
    simp only [List.length_nil, Nat.add_zero] at hT
    have hplen : (drainPushed nodes n.id st.adjacency ms).length ≤ ms.length := by
      have h := drainPushed_ids_sublist nodes n.id st.adjacency ms
      have h2 := h.length_le
      simpa using h2
    have hsl : st.startNodes.dropLast.length + 1 = st.startNodes.length := by
      conv_rhs => rw [← hsplit]
      simp
    show 2 * totalAdjSize (aset st.adjacency n.id []) +
      (st.startNodes.dropLast ++ drainPushed nodes n.id st.adjacency ms).length <
      2 * totalAdjSize st.adjacency + st.startNodes.length
    rw [List.length_append]
    omega

theorem kahnLoop_correct (nodes : List Node) (conns : List Connection)
    (hnd : (nodes.map (fun n => n.id)).Nodup) :
    ∀ (fuel : Nat) (st : KahnState), KahnInv nodes conns st →
      kahnMeasure st ≤ fuel →
      KahnInv nodes conns (kahnLoop nodes fuel st) ∧
      (kahnLoop nodes fuel st).startNodes = [] := by
  intro fuel
  induction fuel with
  | zero =>
      intro st inv hm
      have h0 : st.startNodes.length = 0 := by
        unfold kahnMeasure at hm
        omega
      exact ⟨inv, List.length_eq_zero.mp h0⟩
  | succ fuel ih =>
      intro st inv hm
      rcases hlast : st.startNodes.getLast? with _ | n
      · have hemp : st.startNodes = [] := List.getLast?_eq_none_iff.mp hlast
        have hstep : kahnLoop nodes (fuel + 1) st = st := by
          conv_lhs => rw [kahnLoop]
          rw [hlast]
        rw [hstep]
        exact ⟨inv, hemp⟩
      · obtain ⟨st', hstep, inv', hdec⟩ := kahnStep_inv nodes conns hnd st inv n hlast
        rw [hstep fuel]
        exact ih st' inv' (by omega)

theorem kahnInit_inv (nodes : List Node) (conns : List Connection)
    (hwf : WellFormed nodes conns) :
    KahnInv nodes conns
      ⟨buildAdjacency nodes conns (interfaceIdToNodeId nodes),
        initialStartNodes nodes conns (interfaceIdToNodeId nodes), []⟩ := by
  obtain ⟨hnd, hfrom, hto⟩ := hwf
  have hadj := buildAdjacency_eq nodes conns hnd
  have hstart := initialStartNodes_eq_filter nodes conns hnd
  have hlook : ∀ (p : String × List String),
      p ∈ buildAdjacency nodes conns (interfaceIdToNodeId nodes) →
      ∃ x ∈ nodes, x.id = p.1 ∧ p.2 = adjEdges nodes conns p.1 := by
    intro p hp
    rw [hadj] at hp
    rcases List.mem_map.mp hp with ⟨x, hx, hxe⟩
    rw [← hxe]
    exact ⟨x, hx, rfl, rfl⟩
  have hkeyEq : ∀ xid,
      hasIncomingB (buildAdjacency nodes conns (interfaceIdToNodeId nodes)) xid = true ↔
      ∃ c ∈ conns, alookup (interfaceIdToNodeId nodes) c.toIntf.id = some xid := by
    intro xid
    rw [hasIncomingB_iff]
    constructor
    · rintro ⟨p, hp, hxp⟩
      rcases hlook p hp with ⟨x, hx, hxu, hv⟩
      rw [hv] at hxp
      rcases (mem_adjEdges_iff nodes conns p.1 xid).mp hxp with ⟨c, hc, hcf, hct⟩
      exact ⟨c, hc, hct⟩
    · rintro ⟨c, hc, hct⟩
      rcases Option.isSome_iff_exists.mp (hfrom c hc) with ⟨u, hu⟩
      have hum := alookup_mem _ _ _ hu
      rcases interfaceIdToNodeId_values nodes _ hum with ⟨x, hx, hxu⟩
      have hxu2 : x.id = u := hxu
      have hedge : xid ∈ adjEdges nodes conns u :=
        (mem_adjEdges_iff _ _ _ _).mpr ⟨c, hc, hu, hct⟩
      refine ⟨(u, adjEdges nodes conns u), ?_, hedge⟩
      rw [hadj, ← hxu2]
      exact List.mem_map.mpr ⟨x, hx, rfl⟩
  have hanyEq : ∀ (x : Node),
      (conns.any (fun c =>
        alookup (interfaceIdToNodeId nodes) c.toIntf.id == some x.id)) = true ↔
      ∃ c ∈ conns, alookup (interfaceIdToNodeId nodes) c.toIntf.id = some x.id := by
    intro x
    rw [List.any_eq_true]
    constructor
    · rintro ⟨c, hc, hbeq⟩
      exact ⟨c, hc, by simpa using hbeq⟩
    · rintro ⟨c, hc, heq⟩
      exact ⟨c, hc, by simp [heq]⟩
  refine ⟨?_, ?_, ?_, ?_, ?_, ?_, ?_, ?_, ?_⟩
  · show (buildAdjacency nodes conns (interfaceIdToNodeId nodes)).map (fun p => p.1) =
      nodes.map (fun n => n.id)
    rw [hadj, List.map_map]
    rfl
  · intro p hp
    rcases hlook p hp with ⟨x, hx, hxu, hv⟩
    rw [hv]
    unfold adjEdges
    exact nodup_dedupKeepFirst _
  · intro p hp m hm
    rcases hlook p hp with ⟨x, hx, hxu, hv⟩
    rw [hv] at hm
    exact hm
  · intro u v hv hnot
    exfalso
    rcases (mem_adjEdges_iff nodes conns u v).mp hv with ⟨c, hc, hcf, hct⟩
    have hum := alookup_mem _ _ _ hcf
    rcases interfaceIdToNodeId_values nodes _ hum with ⟨x, hx, hxu⟩
    have hxu2 : x.id = u := hxu
    have hlk : alookup (buildAdjacency nodes conns (interfaceIdToNodeId nodes)) u =
        some (adjEdges nodes conns u) := by
      rw [hadj, ← hxu2]
      have := alookup_nodes_map (fun y => adjEdges nodes conns y.id) nodes hnd x hx
      rw [hxu2] at this
      rw [← hxu2] at this
      exact this
    rw [hlk] at hnot
    exact hnot hv
  · intro u hu
    simp at hu
  · intro x hx
    rcases List.mem_append.mp hx with h | h
    · cases h
    · rw [hstart] at h
      exact (List.mem_filter.mp h).1
  · show ((([] : List Node) ++
      initialStartNodes nodes conns (interfaceIdToNodeId nodes)).map
        (fun n => n.id)).Nodup
    rw [List.nil_append, hstart]
    exact List.Nodup.sublist (List.Sublist.map _ (List.filter_sublist nodes)) hnd
  · intro x hx
    rw [List.nil_append, hstart]
    rw [List.mem_filter]
    constructor
    · rintro ⟨_, hpred⟩
      cases hb : hasIncomingB (buildAdjacency nodes conns (interfaceIdToNodeId nodes))
        x.id with
      | false => rfl
      | true =>
          exfalso
          rcases (hkeyEq x.id).mp hb with ⟨c, hc, hct⟩
          have : (conns.any (fun c =>
              alookup (interfaceIdToNodeId nodes) c.toIntf.id == some x.id)) = true :=
            (hanyEq x).mpr ⟨c, hc, hct⟩
          rw [this] at hpred
          cases hpred
    · intro hb
      refine ⟨hx, ?_⟩
      cases hany : (conns.any (fun c =>
          alookup (interfaceIdToNodeId nodes) c.toIntf.id == some x.id)) with
      | false => rfl
      | true =>
          exfalso
          rcases (hanyEq x).mp hany with ⟨c, hc, hct⟩
          have := (hkeyEq x.id).mpr ⟨c, hc, hct⟩
          rw [hb] at this
          cases this
  · intro u v hv hvmem
    simp at hvmem

theorem exists_succ_of_transGen {α : Type} {r : α → α → Prop} {a b : α}
    (h : Relation.TransGen r a b) : ∃ c, r a c := by
  induction h with
  | single h => exact ⟨_, h⟩
  | tail h₁ h₂ ih => exact ih

theorem cycle_of_descent (r : String → String → Prop) (S : List String)
    (hne : S ≠ []) (hdesc : ∀ m ∈ S, ∃ u ∈ S, r u m) :
    ∃ n, Relation.TransGen r n n := by
  classical
  obtain ⟨m0, hm0⟩ := List.exists_mem_of_ne_nil S hne
  have hch : ∀ m : {x // x ∈ S}, ∃ u : {x // x ∈ S}, r u.1 m.1 := by
    rintro ⟨m, hm⟩
    obtain ⟨u, hu, hru⟩ := hdesc m hm
    exact ⟨⟨u, hu⟩, hru⟩
  choose g hg using hch
  let f : Nat → {x // x ∈ S} := fun k =>
    Nat.rec (motive := fun _ => {x // x ∈ S}) ⟨m0, hm0⟩ (fun _ prev => g prev) k
  have hstep : ∀ k, r (f (k + 1)).1 (f k).1 := fun k => hg (f k)
  have hchain : ∀ i j, i < j → Relation.TransGen r (f j).1 (f i).1 := by
    intro i j hij
    induction j with
    | zero => omega
    | succ j ih =>
        rcases Nat.lt_succ_iff_lt_or_eq.mp hij with h | h
        · exact Relation.TransGen.head (hstep j) (ih h)
        · subst h
          exact Relation.TransGen.single (hstep i)
  have hfin : ∀ k, (f k).1 ∈ S := fun k => (f k).2
  obtain ⟨i, j, hne2, heq⟩ := Finite.exists_ne_map_eq_of_infinite
    (fun k => (⟨S.indexOf (f k).1, List.indexOf_lt_length.mpr (hfin k)⟩ : Fin S.length))
  have heqv : (f i).1 = (f j).1 := by
    have h1 : S.indexOf (f i).1 = S.indexOf (f j).1 := congrArg Fin.val heq
    exact (List.indexOf_inj (hfin i) (hfin j)).mp h1
  rcases Ne.lt_or_lt hne2 with h | h
  · refine ⟨(f j).1, ?_⟩
    have hc := hchain i j h
    rw [heqv] at hc
    exact hc
  · refine ⟨(f i).1, ?_⟩
    have hc := hchain j i h
    rw [← heqv] at hc
    exact hc

theorem acyclic_of_ranked (nodes : List Node) (conns : List Connection)
    (rank : String → Nat)
    (hr : ∀ u v, edgeOf nodes conns u v → rank u < rank v) :
    Acyclic nodes conns := by
  intro n hcyc
  have hmono : ∀ a b, Relation.TransGen (edgeOf nodes conns) a b →
      rank a < rank b := by
    intro a b h
    induction h with
    | single h => exact hr _ _ h
    | tail h₁ h₂ ih => exact Nat.lt_trans ih (hr _ _ h₂)
  exact Nat.lt_irrefl _ (hmono n n hcyc)

theorem sortTopologically_eq (nodes : List Node) (conns : List Connection) :
    sortTopologically nodes conns =
      if (kahnEndState nodes conns).adjacency.any (fun p => !p.2.isEmpty) then
        .error .cycleError
      else
        .ok ⟨(kahnEndState nodes conns).sorted,
          buildConnectionsFromNode nodes conns (interfaceIdToNodeId nodes),
          interfaceIdToNodeId nodes⟩ := rfl

theorem kahnEndState_inv (nodes : List Node) (conns : List Connection)
    (hwf : WellFormed nodes conns) :
    KahnInv nodes conns (kahnEndState nodes conns) ∧
    (kahnEndState nodes conns).startNodes = [] := by
  have hinv0 := kahnInit_inv nodes conns hwf
  exact kahnLoop_correct nodes conns hwf.1
    (kahnFuel (buildAdjacency nodes conns (interfaceIdToNodeId nodes))
      (initialStartNodes nodes conns (interfaceIdToNodeId nodes)))
    ⟨buildAdjacency nodes conns (interfaceIdToNodeId nodes),
      initialStartNodes nodes conns (interfaceIdToNodeId nodes), []⟩
    hinv0 (Nat.le_refl _)

theorem kahn_all_sorted_of_acyclic (nodes : List Node) (conns : List Connection)
    (hwf : WellFormed nodes conns) (hacyc : Acyclic nodes conns)
    (st : KahnState) (inv : KahnInv nodes conns st)
    (hend : st.startNodes = []) :
    ∀ x ∈ nodes, x ∈ st.sorted := by
  obtain ⟨hnd, hfrom, hto⟩ := hwf
  have hadjnd : (st.adjacency.map (fun p => p.1)).Nodup := by
    rw [inv.adjKeys]
    exact hnd
  have hdesc : ∀ m ∈ (nodes.map (fun n => n.id)).filter
      (fun u => decide (¬ u ∈ st.sorted.map (fun n => n.id))),
      ∃ u ∈ (nodes.map (fun n => n.id)).filter
        (fun u => decide (¬ u ∈ st.sorted.map (fun n => n.id))),
      edgeOf nodes conns u m := by
    intro m hm
    obtain ⟨hmn, hmna⟩ := List.mem_filter.mp hm
    have hmnotin : ¬ m ∈ st.sorted.map (fun n => n.id) := of_decide_eq_true hmna
    obtain ⟨x, hx, hxid⟩ := List.mem_map.mp hmn
    have hxnot : x ∉ st.sorted ++ st.startNodes := by
      rw [hend, List.append_nil]
      intro hmem
      exact hmnotin (hxid ▸ List.mem_map.mpr ⟨x, hmem, rfl⟩)
    have hinc : hasIncomingB st.adjacency x.id = true := by
      cases hb : hasIncomingB st.adjacency x.id with
      | false => exact absurd ((inv.memIff x hx).mpr hb) hxnot
      | true => rfl
    obtain ⟨p, hp, hxp⟩ := (hasIncomingB_iff _ _).mp hinc
    obtain ⟨u, vs⟩ := p
    have hun : u ∈ nodes.map (fun n => n.id) := by
      rw [← inv.adjKeys]
      exact List.mem_map.mpr ⟨(u, vs), hp, rfl⟩
    have hlk : alookup st.adjacency u = some vs :=
      alookup_of_mem_nodup _ hadjnd _ _ hp
    have hunot : ¬ u ∈ st.sorted.map (fun n => n.id) := by
      intro huid
      have hdr := inv.sortedDrained u huid
      rw [hlk] at hdr
      simp only [Option.getD_some] at hdr
      subst hdr
      cases hxp
    have hedge : edgeOf nodes conns u x.id :=
      (mem_adjEdges_iff nodes conns u x.id).mp (inv.adjSub (u, vs) hp x.id hxp)
    refine ⟨u, List.mem_filter.mpr ⟨hun, decide_eq_true hunot⟩, ?_⟩
    rw [← hxid]
    exact hedge
  have hSnil : (nodes.map (fun n => n.id)).filter
      (fun u => decide (¬ u ∈ st.sorted.map (fun n => n.id))) = [] := by
    by_contra hSne
    obtain ⟨n, hcyc⟩ := cycle_of_descent (edgeOf nodes conns) _ hSne hdesc
    exact hacyc n hcyc
  intro x hx
  have hxid : x.id ∈ st.sorted.map (fun n => n.id) := by
    by_contra hxnot
    have hmemS : x.id ∈ (nodes.map (fun n => n.id)).filter
        (fun u => decide (¬ u ∈ st.sorted.map (fun n => n.id))) :=
      List.mem_filter.mpr ⟨List.mem_map.mpr ⟨x, hx, rfl⟩, decide_eq_true hxnot⟩
    rw [hSnil] at hmemS
    cases hmemS
  obtain ⟨y, hy, hyid⟩ := List.mem_map.mp hxid
  have hyn : y ∈ nodes := inv.memNodes y (List.mem_append.mpr (Or.inl hy))
  have hxy : y = x := List.inj_on_of_nodup_map hnd hyn hx hyid
  rw [← hxy]
  exact hy

theorem kahn_adj_empty_of_sorted (nodes : List Node) (conns : List Connection)
    (hnd : (nodes.map (fun n => n.id)).Nodup)
    (st : KahnState) (inv : KahnInv nodes conns st)
    (hall : ∀ x ∈ nodes, x ∈ st.sorted) :
    st.adjacency.any (fun p => !p.2.isEmpty) = false := by
  have hadjnd : (st.adjacency.map (fun p => p.1)).Nodup := by
    rw [inv.adjKeys]
    exact hnd
  rw [List.any_eq_false]
  rintro ⟨u, vs⟩ hp
  have hun : u ∈ nodes.map (fun n => n.id) := by
    rw [← inv.adjKeys]
    exact List.mem_map.mpr ⟨(u, vs), hp, rfl⟩
  obtain ⟨x, hx, hxid⟩ := List.mem_map.mp hun
  have hxs : x ∈ st.sorted := hall x hx
  have huid : u ∈ st.sorted.map (fun n => n.id) := by
    rw [← hxid]
    exact List.mem_map.mpr ⟨x, hxs, rfl⟩
  have hdr := inv.sortedDrained u huid
  have hlk : alookup st.adjacency u = some vs :=
    alookup_of_mem_nodup _ hadjnd _ _ hp
  rw [hlk] at hdr
  simp only [Option.getD_some] at hdr
  subst hdr
  simp

theorem kahnInv_ordered_indexOf (nodes : List Node) (conns : List Connection)
    (st : KahnState) (inv : KahnInv nodes conns st) (u v : String)
    (hadj : v ∈ adjEdges nodes conns u)
    (hvids : v ∈ st.sorted.map (fun n => n.id)) :
    (st.sorted.map (fun n => n.id)).indexOf u <
      (st.sorted.map (fun n => n.id)).indexOf v := by
  obtain ⟨l₁, l₂, hsplit, hu, hv⟩ := inv.ordered u v hadj hvids
  have hndids : (st.sorted.map (fun n => n.id)).Nodup := by
    have h := inv.idsNodup
    rw [List.map_append] at h
    exact (List.nodup_append.mp h).1
  rw [hsplit] at hndids
  have hvnot : v ∉ l₁ := fun hvl => (List.nodup_append.mp hndids).2.2 hvl hv
  have h1 : (l₁ ++ l₂).indexOf u = l₁.indexOf u := List.indexOf_append_of_mem hu
  have h2 : (l₁ ++ l₂).indexOf v = l₁.length + l₂.indexOf v :=
    List.indexOf_append_of_not_mem hvnot
  have h3 : l₁.indexOf u < l₁.length := List.indexOf_lt_length.mpr hu
  rw [hsplit, h1, h2]
  omega

theorem acyclic_of_check_false (nodes : List Node) (conns : List Connection)
    (hwf : WellFormed nodes conns)
    (hchk : (kahnEndState nodes conns).adjacency.any (fun p => !p.2.isEmpty)
      = false) :
    Acyclic nodes conns := by
  obtain ⟨inv, hend⟩ := kahnEndState_inv nodes conns hwf
  obtain ⟨hnd, hfrom, hto⟩ := hwf
  have hadjnd : ((kahnEndState nodes conns).adjacency.map (fun p => p.1)).Nodup := by
    rw [inv.adjKeys]
    exact hnd
  rw [List.any_eq_false] at hchk
  have hempty : ∀ u, u ∈ nodes.map (fun n => n.id) →
      (alookup (kahnEndState nodes conns).adjacency u).getD [] = [] := by
    intro u hun
    rw [← inv.adjKeys] at hun
    obtain ⟨p, hp, hpu⟩ := List.mem_map.mp hun
    obtain ⟨u', vs⟩ := p
    cases hpu
    have hvs : vs = [] := by
      have h := hchk _ hp
      simp at h
      exact h
    subst hvs
    rw [alookup_of_mem_nodup _ hadjnd _ _ hp]
    rfl
  have hnodeid : ∀ a b, edgeOf nodes conns a b → a ∈ nodes.map (fun n => n.id) ∧
      b ∈ nodes.map (fun n => n.id) := by
    rintro a b ⟨c, hc, hfa, htb⟩
    constructor
    · obtain ⟨x, hx, hxa⟩ := interfaceIdToNodeId_values nodes _ (alookup_mem _ _ _ hfa)
      exact List.mem_map.mpr ⟨x, hx, hxa⟩
    · obtain ⟨x, hx, hxb⟩ := interfaceIdToNodeId_values nodes _ (alookup_mem _ _ _ htb)
      exact List.mem_map.mpr ⟨x, hx, hxb⟩
  have hsorted : ∀ a b, edgeOf nodes conns a b →
      a ∈ (kahnEndState nodes conns).sorted.map (fun n => n.id) := by
    intro a b hab
    have hadj := (mem_adjEdges_iff nodes conns a b).mpr hab
    refine inv.removedSorted a b hadj ?_
    rw [hempty a (hnodeid a b hab).1]
    intro hb
    cases hb
  have hstep : ∀ a b, edgeOf nodes conns a b → (∃ w, edgeOf nodes conns b w) →
      ((kahnEndState nodes conns).sorted.map (fun n => n.id)).indexOf a <
        ((kahnEndState nodes conns).sorted.map (fun n => n.id)).indexOf b := by
    rintro a b hab ⟨w, hbw⟩
    have hbids : b ∈ (kahnEndState nodes conns).sorted.map (fun n => n.id) :=
      hsorted b w hbw
    exact kahnInv_ordered_indexOf nodes conns _ inv a b
      ((mem_adjEdges_iff nodes conns a b).mpr hab) hbids
  intro n hcyc
  have hmono : ∀ a b, Relation.TransGen (edgeOf nodes conns) a b →
      (∃ w, edgeOf nodes conns b w) →
      ((kahnEndState nodes conns).sorted.map (fun n => n.id)).indexOf a <
        ((kahnEndState nodes conns).sorted.map (fun n => n.id)).indexOf b := by
    intro a b h
    induction h with
    | single h => exact fun hout => hstep _ _ h hout
    | tail h₁ h₂ ih =>
        intro hout
        exact Nat.lt_trans (ih ⟨_, h₂⟩) (hstep _ _ h₂ hout)
  have hout : ∃ w, edgeOf nodes conns n w := exists_succ_of_transGen hcyc
  exact Nat.lt_irrefl _ (hmono n n hcyc hout)

/-- C1: for a well-formed acyclic set of nodes and connections (given
directly or as a graph), `sortTopologically` succeeds and returns a
`calculationOrder` that is a permutation of exactly the input nodes in
which, for every input connection, the node owning the connection's source
port appears at a strictly smaller index than the node owning its
destination port. -/
theorem sortTopologically_acyclic_correct (nodes : List Node)
    (conns : List Connection) (hwf : WellFormed nodes conns)
    (hacyc : Acyclic nodes conns) :
    ∃ r : SortResult, sortTopologically nodes conns = .ok r ∧
      (∀ gid, sortTopologicallyGraph ⟨gid, nodes, conns⟩ = .ok r) ∧
      r.calculationOrder.Perm nodes ∧
      (∀ c ∈ conns, ∀ u v, ownerId nodes c.fromIntf.id = some u →
        ownerId nodes c.toIntf.id = some v →
        (r.calculationOrder.map (fun n => n.id)).indexOf u <
          (r.calculationOrder.map (fun n => n.id)).indexOf v) := by
  obtain ⟨inv, hend⟩ := kahnEndState_inv nodes conns hwf
  have hall := kahn_all_sorted_of_acyclic nodes conns hwf hacyc _ inv hend
  have hchk := kahn_adj_empty_of_sorted nodes conns hwf.1 _ inv hall
  have hok : sortTopologically nodes conns =
      .ok ⟨(kahnEndState nodes conns).sorted,
        buildConnectionsFromNode nodes conns (interfaceIdToNodeId nodes),
        interfaceIdToNodeId nodes⟩ := by
    rw [sortTopologically_eq, hchk]
    simp
  refine ⟨_, hok, fun gid => hok, ?_, ?_⟩
  · have hsortednd : (kahnEndState nodes conns).sorted.Nodup := by
      have h := inv.idsNodup
      rw [hend, List.append_nil] at h
      exact h.of_map _
    have hnodesnd : nodes.Nodup := hwf.1.of_map _
    refine (List.perm_ext_iff_of_nodup hsortednd hnodesnd).mpr ?_
    intro a
    constructor
    · intro ha
      exact inv.memNodes a (List.mem_append.mpr (Or.inl ha))
    · intro ha
      exact hall a ha
  · intro c hc u v hu hv
    have hedge : edgeOf nodes conns u v := ⟨c, hc, hu, hv⟩
    have hadj := (mem_adjEdges_iff nodes conns u v).mpr hedge
    obtain ⟨y, hy, hyv⟩ := interfaceIdToNodeId_values nodes _ (alookup_mem _ _ _ hv)
    have hvids : v ∈ (kahnEndState nodes conns).sorted.map (fun n => n.id) := by
      have hyv2 : y.id = v := hyv
      rw [← hyv2]
      exact List.mem_map.mpr ⟨y, hall y hy, rfl⟩
    exact kahnInv_ordered_indexOf nodes conns _ inv u v hadj hvids

theorem hint_fixture_acyclic : Acyclic [fn1, fn2] [fcn] := by
  refine acyclic_of_ranked _ _ (fun s => if s = "n2" then 1 else 0) ?_
  rintro u v ⟨c, hc, hu, hv⟩
  rcases List.mem_cons.mp hc with rfl | hce
  · rw [show ownerId [fn1, fn2] fcn.fromIntf.id = some "n1" from rfl] at hu
    rw [show ownerId [fn1, fn2] fcn.toIntf.id = some "n2" from rfl] at hv
    cases hu
    cases hv
    decide
  · cases hce

theorem sortTopologically_acyclic_correct_witness :
    WellFormed [fn1, fn2] [fcn] ∧ Acyclic [fn1, fn2] [fcn] ∧
    (∃ r : SortResult, sortTopologically [fn1, fn2] [fcn] = .ok r ∧
      (∀ gid, sortTopologicallyGraph ⟨gid, [fn1, fn2], [fcn]⟩ = .ok r) ∧
      r.calculationOrder.Perm [fn1, fn2] ∧
      (∀ c ∈ [fcn], ∀ u v, ownerId [fn1, fn2] c.fromIntf.id = some u →
        ownerId [fn1, fn2] c.toIntf.id = some v →
        (r.calculationOrder.map (fun n => n.id)).indexOf u <
          (r.calculationOrder.map (fun n => n.id)).indexOf v)) :=
  ⟨by unfold WellFormed; decide, hint_fixture_acyclic,
    sortTopologically_acyclic_correct [fn1, fn2] [fcn]
      (by unfold WellFormed; decide) hint_fixture_acyclic⟩

/-- C2: for every well-formed input set of nodes and connections, if the
connection-induced edge relation contains a directed cycle then
`sortTopologically` fails with `CycleError` (its sole error kind) and
`containsCycle` returns true; if it is acyclic then `sortTopologically`
succeeds and `containsCycle` returns false; in sum, `containsCycle` returns
true exactly when a directed cycle exists. -/
theorem sortTopologically_cycle_detection (nodes : List Node)
    (conns : List Connection) (hwf : WellFormed nodes conns) :
    ((∃ n, Relation.TransGen (edgeOf nodes conns) n n) →
      sortTopologically nodes conns = .error .cycleError ∧
      containsCycle nodes conns = true) ∧
    (Acyclic nodes conns →
      (∃ r : SortResult, sortTopologically nodes conns = .ok r) ∧
      containsCycle nodes conns = false) ∧
    (containsCycle nodes conns = true ↔
      ∃ n, Relation.TransGen (edgeOf nodes conns) n n) := by
  have hacy : Acyclic nodes conns →
      (∃ r : SortResult, sortTopologically nodes conns = .ok r) ∧
      containsCycle nodes conns = false := by
    intro hacyc
    obtain ⟨inv, hend⟩ := kahnEndState_inv nodes conns hwf
    have hall := kahn_all_sorted_of_acyclic nodes conns hwf hacyc _ inv hend
    have hchk := kahn_adj_empty_of_sorted nodes conns hwf.1 _ inv hall
    have hok : sortTopologically nodes conns =
        .ok ⟨(kahnEndState nodes conns).sorted,
          buildConnectionsFromNode nodes conns (interfaceIdToNodeId nodes),
          interfaceIdToNodeId nodes⟩ := by
      rw [sortTopologically_eq, hchk]
      simp
    refine ⟨⟨_, hok⟩, ?_⟩
    unfold containsCycle
    rw [hok]
  have hcyc2 : (∃ n, Relation.TransGen (edgeOf nodes conns) n n) →
      sortTopologically nodes conns = .error .cycleError ∧
      containsCycle nodes conns = true := by
    rintro ⟨n, hcyc⟩
    have hnacyc : ¬ Acyclic nodes conns := fun h => h n hcyc
    have hchk : (kahnEndState nodes conns).adjacency.any (fun p => !p.2.isEmpty)
        = true := by
      cases hb : (kahnEndState nodes conns).adjacency.any (fun p => !p.2.isEmpty)
        with
      | true => rfl
      | false => exact absurd (acyclic_of_check_false nodes conns hwf hb) hnacyc
    have herr : sortTopologically nodes conns = .error .cycleError := by
      rw [sortTopologically_eq, hchk]
      simp
    refine ⟨herr, ?_⟩
    unfold containsCycle
    rw [herr]
  refine ⟨hcyc2, hacy, ?_, fun hex => (hcyc2 hex).2⟩
  intro htrue
  by_contra hnex
  have hacyc : Acyclic nodes conns := fun n hc => hnex ⟨n, hc⟩
  rw [(hacy hacyc).2] at htrue
  cases htrue

theorem sortTopologically_cycle_detection_witness :
    containsCycle [cycNodeA, cycNodeB] [cycConnAB, cycConnBA] = true ∧
    containsCycle [fn1, fn2] [fcn] = false := by
  constructor
  · have hedgeAB : edgeOf [cycNodeA, cycNodeB] [cycConnAB, cycConnBA] "ca" "cb" :=
      ⟨cycConnAB, by simp, rfl, rfl⟩
    have hedgeBA : edgeOf [cycNodeA, cycNodeB] [cycConnAB, cycConnBA] "cb" "ca" :=
      ⟨cycConnBA, by simp, rfl, rfl⟩
    exact ((sortTopologically_cycle_detection [cycNodeA, cycNodeB]
      [cycConnAB, cycConnBA] (by unfold WellFormed; decide)).1
      ⟨"ca", Relation.TransGen.tail (Relation.TransGen.single hedgeAB)
        hedgeBA⟩).2
  · exact ((sortTopologically_cycle_detection [fn1, fn2] [fcn]
      (by unfold WellFormed; decide)).2.1 hint_fixture_acyclic).2

theorem UStep.symm {conns : List Connection} {u v : String}
    (h : UStep conns u v) : UStep conns v u := by
  obtain ⟨c, hc, h | h⟩ := h
  · exact ⟨c, hc, Or.inr h⟩
  · exact ⟨c, hc, Or.inl h⟩

theorem buildSuccPred_fst_aux (conns : List Connection)
    (iMap : List (String × String)) :
    ∀ (ns : List Node)
      (acc : List (String × List Connection) × List (String × List Connection)),
      (ns.foldl (fun acc n =>
        let succ := acc.1
        let pred := acc.2
        let cfn := connectionsFrom iMap conns n.id
        let pred := if (alookup pred n.id).isSome then pred else aset pred n.id []
        let pred := cfn.foldl (fun pred c =>
          let pred :=
            if (alookup pred c.toIntf.nodeId).isSome then pred
            else aset pred c.toIntf.nodeId []
          aset pred c.toIntf.nodeId
            ((alookup pred c.toIntf.nodeId).getD [] ++ [c])) pred
        (aset succ n.id cfn, pred)) acc).1 =
      ns.foldl (fun s n => aset s n.id (connectionsFrom iMap conns n.id)) acc.1
  | [], acc => rfl
  | n :: rest, acc => buildSuccPred_fst_aux conns iMap rest _

theorem buildSuccPred_snd_aux (conns : List Connection)
    (iMap : List (String × String)) :
    ∀ (ns : List Node)
      (acc : List (String × List Connection) × List (String × List Connection)),
      (ns.foldl (fun acc n =>
        let succ := acc.1
        let pred := acc.2
        let cfn := connectionsFrom iMap conns n.id
        let pred := if (alookup pred n.id).isSome then pred else aset pred n.id []
        let pred := cfn.foldl (fun pred c =>
          let pred :=
            if (alookup pred c.toIntf.nodeId).isSome then pred
            else aset pred c.toIntf.nodeId []
          aset pred c.toIntf.nodeId
            ((alookup pred c.toIntf.nodeId).getD [] ++ [c])) pred
        (aset succ n.id cfn, pred)) acc).2 =
      ns.foldl (fun p n =>
        (connectionsFrom iMap conns n.id).foldl
          (fun p c => pushEntry p c.toIntf.nodeId c)
          (if (alookup p n.id).isSome then p else aset p n.id [])) acc.2
  | [], acc => rfl
  | n :: rest, acc => buildSuccPred_snd_aux conns iMap rest _

theorem buildSuccPred_fst (nodes : List Node) (conns : List Connection)
    (hnd : (nodes.map (fun n => n.id)).Nodup) :
    (buildSuccPred nodes conns (interfaceIdToNodeId nodes)).1 =
      nodes.map (fun n =>
        (n.id, connectionsFrom (interfaceIdToNodeId nodes) conns n.id)) := by
  have h1 : (buildSuccPred nodes conns (interfaceIdToNodeId nodes)).1 =
      nodes.foldl (fun s n =>
        aset s n.id (connectionsFrom (interfaceIdToNodeId nodes) conns n.id)) [] :=
    buildSuccPred_fst_aux conns (interfaceIdToNodeId nodes) nodes ([], [])
  rw [h1]
  exact foldl_aset_fresh _ nodes [] (fun n _ => rfl) hnd

theorem succ_lookup (nodes : List Node) (conns : List Connection)
    (hnd : (nodes.map (fun n => n.id)).Nodup) (x : Node) (hx : x ∈ nodes) :
    alookup (buildSuccPred nodes conns (interfaceIdToNodeId nodes)).1 x.id =
      some (connectionsFrom (interfaceIdToNodeId nodes) conns x.id) := by
  rw [buildSuccPred_fst nodes conns hnd]
  exact alookup_nodes_map _ nodes hnd x hx

theorem mem_connectionsFrom_iff (nodes : List Node) (conns : List Connection)
    (hfrom : ∀ c ∈ conns, ownerId nodes c.fromIntf.id = some c.fromIntf.nodeId)
    (u : String) (c : Connection) :
    c ∈ connectionsFrom (interfaceIdToNodeId nodes) conns u ↔
      c ∈ conns ∧ c.fromIntf.nodeId = u := by
  unfold connectionsFrom
  rw [List.mem_filter]
  constructor
  · rintro ⟨hc, hb⟩
    have hb2 : alookup (interfaceIdToNodeId nodes) c.fromIntf.id = some u := by
      simpa using hb
    have hcons := hfrom c hc
    rw [show ownerId nodes c.fromIntf.id =
      alookup (interfaceIdToNodeId nodes) c.fromIntf.id from rfl] at hcons
    rw [hcons] at hb2
    exact ⟨hc, Option.some.inj hb2⟩
  · rintro ⟨hc, rfl⟩
    have hcons := hfrom c hc
    rw [show ownerId nodes c.fromIntf.id =
      alookup (interfaceIdToNodeId nodes) c.fromIntf.id from rfl] at hcons
    exact ⟨hc, by simp [hcons]⟩

theorem mem_pushEntry (m : List (String × List Connection)) (k : String)
    (x : Connection) (v : String) (y : Connection) :
    y ∈ (alookup (pushEntry m k x) v).getD [] ↔
      (y ∈ (alookup m v).getD [] ∨ (v = k ∧ y = x)) := by
  unfold pushEntry
  by_cases hv : v = k
  · subst hv
    cases hs : alookup m v with
    | some l =>
        rw [if_pos (by rfl)]
        rw [alookup_aset_getD, hs]
        simp
    | none =>
        rw [if_neg (by simp)]
        rw [alookup_aset_getD, alookup_aset_self]
        simp [hs]
  · have hv2 : v ≠ k := hv
    cases hs : alookup m k with
    | some l =>
        rw [if_pos (by rfl)]
        rw [alookup_aset_ne _ _ _ _ hv2]
        simp [hv]
    | none =>
        rw [if_neg (by simp)]
        rw [alookup_aset_ne _ _ _ _ hv2, alookup_aset_ne _ _ _ _ hv2]
        simp [hv]

theorem mem_foldl_pushEntry (cs : List Connection) :
    ∀ (m : List (String × List Connection)) (v : String) (y : Connection),
    y ∈ (alookup (cs.foldl (fun p c => pushEntry p c.toIntf.nodeId c) m) v).getD []
      ↔ (y ∈ (alookup m v).getD [] ∨ (y ∈ cs ∧ y.toIntf.nodeId = v)) := by
  induction cs with
  | nil => intro m v y; simp
  | cons c rest ih =>
      intro m v y
      rw [List.foldl_cons, ih, mem_pushEntry]
      constructor
      · rintro ((h | ⟨rfl, rfl⟩) | ⟨h1, h2⟩)
        · exact Or.inl h
        · exact Or.inr ⟨by simp, rfl⟩
        · exact Or.inr ⟨by simp [h1], h2⟩
      · rintro (h | ⟨hmem, hvv⟩)
        · exact Or.inl (Or.inl h)
        · rcases List.mem_cons.mp hmem with rfl | h2
          · exact Or.inl (Or.inr ⟨hvv.symm, rfl⟩)
          · exact Or.inr ⟨h2, hvv⟩

theorem mem_ensure (m : List (String × List Connection)) (k v : String)
    (y : Connection) :
    y ∈ (alookup (if (alookup m k).isSome then m else aset m k []) v).getD [] ↔
      y ∈ (alookup m v).getD [] := by
  by_cases hs : (alookup m k).isSome
  · rw [if_pos hs]
  · rw [if_neg hs]
    by_cases hv : v = k
    · subst hv
      cases hlk : alookup m v with
      | some l => exact absurd (by rw [hlk]; rfl) hs
      | none =>
          rw [alookup_aset_self]
          simp [hlk]
    · rw [alookup_aset_ne _ _ _ _ hv]

theorem mem_predMap (conns : List Connection) (iMap : List (String × String)) :
    ∀ (ns : List Node) (p : List (String × List Connection)) (v : String)
      (y : Connection),
    y ∈ (alookup (ns.foldl (fun p n =>
        (connectionsFrom iMap conns n.id).foldl
          (fun p c => pushEntry p c.toIntf.nodeId c)
          (if (alookup p n.id).isSome then p else aset p n.id [])) p) v).getD []
      ↔ (y ∈ (alookup p v).getD [] ∨
          (∃ n ∈ ns, y ∈ connectionsFrom iMap conns n.id ∧
            y.toIntf.nodeId = v)) := by
  intro ns
  induction ns with
  | nil => intro p v y; simp
  | cons n rest ih =>
      intro p v y
      rw [List.foldl_cons, ih, mem_foldl_pushEntry, mem_ensure]
      constructor
      · rintro ((h | ⟨h1, h2⟩) | ⟨x, hx, h1, h2⟩)
        · exact Or.inl h
        · exact Or.inr ⟨n, by simp, h1, h2⟩
        · exact Or.inr ⟨x, by simp [hx], h1, h2⟩
      · rintro (h | ⟨x, hx, h1, h2⟩)
        · exact Or.inl (Or.inl h)
        · rcases List.mem_cons.mp hx with rfl | hx2
          · exact Or.inl (Or.inr ⟨h1, h2⟩)
          · exact Or.inr ⟨x, hx2, h1, h2⟩

theorem pred_lookup_mem (nodes : List Node) (conns : List Connection)
    (v : String) (y : Connection) :
    y ∈ (alookup (buildSuccPred nodes conns (interfaceIdToNodeId nodes)).2 v).getD []
      ↔ ∃ n ∈ nodes,
          y ∈ connectionsFrom (interfaceIdToNodeId nodes) conns n.id ∧
          y.toIntf.nodeId = v := by
  have h2 : (buildSuccPred nodes conns (interfaceIdToNodeId nodes)).2 =
      nodes.foldl (fun p n =>
        (connectionsFrom (interfaceIdToNodeId nodes) conns n.id).foldl
          (fun p c => pushEntry p c.toIntf.nodeId c)
          (if (alookup p n.id).isSome then p else aset p n.id [])) [] :=
    buildSuccPred_snd_aux conns (interfaceIdToNodeId nodes) nodes ([], [])
  rw [h2, mem_predMap]
  simp [alookup]

theorem nodeIdToNode_lookup (nodes : List Node)
    (hnd : (nodes.map (fun n => n.id)).Nodup) (x : Node) (hx : x ∈ nodes) :
    alookup (nodeIdToNode nodes) x.id = some x := by
  have h := foldl_aset_fresh (fun n => n) nodes [] (fun n _ => rfl) hnd
  have h2 : nodeIdToNode nodes = nodes.map (fun n => (n.id, n)) := by
    unfold nodeIdToNode
    simpa using h
  rw [h2]
  exact alookup_nodes_map (fun n => n) nodes hnd x hx

theorem dfs_spec (nodes : List Node) (conns : List Connection)
    (succ pred : List (String × List Connection))
    (nodeMap : List (String × Node))
    (hsucc : ∀ x : Node, x ∈ nodes →
      alookup succ x.id =
        some (connectionsFrom (interfaceIdToNodeId nodes) conns x.id))
    (hsuccMem : ∀ u c, c ∈ connectionsFrom (interfaceIdToNodeId nodes) conns u ↔
      (c ∈ conns ∧ c.fromIntf.nodeId = u))
    (hpred : ∀ v y, y ∈ (alookup pred v).getD [] →
      y ∈ conns ∧ y.toIntf.nodeId = v)
    (hpredC : ∀ c ∈ conns, c ∈ (alookup pred c.toIntf.nodeId).getD [])
    (hmap : ∀ u, u ∈ nodes.map (fun n => n.id) →
      ∃ nd ∈ nodes, alookup nodeMap u = some nd ∧ nd.id = u)
    (hends : ∀ c ∈ conns, c.fromIntf.nodeId ∈ nodes.map (fun n => n.id) ∧
      c.toIntf.nodeId ∈ nodes.map (fun n => n.id)) :
    ∀ (fuel : Nat) (root : String) (st : DfsState),
      root ∈ nodes.map (fun n => n.id) →
      (∀ u ∈ st.visited, u ∈ nodes.map (fun n => n.id)) →
      st.visited.Nodup →
      nodes.length + 1 ≤ fuel + st.visited.length →
      ∃ t : List Node,
        (dfs succ pred nodeMap fuel root st).visited
            = st.visited ++ t.map (fun n => n.id) ∧
        (dfs succ pred nodeMap fuel root st).compNodes = st.compNodes ++ t ∧
        (∀ x ∈ t, x ∈ nodes) ∧
        (∀ c, c ∈ (dfs succ pred nodeMap fuel root st).compConns ↔
          (c ∈ st.compConns ∨
            (c ∈ conns ∧ c.fromIntf.nodeId ∈ t.map (fun n => n.id)))) ∧
        root ∈ (dfs succ pred nodeMap fuel root st).visited ∧
        (∀ u ∈ t.map (fun n => n.id), ∀ v, UStep conns u v →
          v ∈ (dfs succ pred nodeMap fuel root st).visited) ∧
        (dfs succ pred nodeMap fuel root st).visited.Nodup := by
  intro fuel
  induction fuel with
  | zero =>
      intro root st hroot hsub hnodup hfl
      exfalso
      have hlen : st.visited.length ≤ (nodes.map (fun n => n.id)).length :=
        List.Subperm.length_le (List.subperm_of_subset hnodup hsub)
      rw [List.length_map] at hlen
      omega
  | succ fuel ih =>
      intro root st hroot hsub hnodup hfl
      cases hc : st.visited.contains root with
      | true =>
          have hdfs : dfs succ pred nodeMap (fuel + 1) root st = st := by
            conv_lhs => rw [dfs]
            rw [hc]
            rfl
          have hrootmem : root ∈ st.visited := by simpa using hc
          refine ⟨[], ?_, ?_, ?_, ?_, ?_, ?_, ?_⟩ <;> try rw [hdfs]
          · simp
          · simp
          · simp
          · simp
          · exact hrootmem
          · simp
          · exact hnodup
      | false =>
          obtain ⟨x, hx, hxid⟩ := List.mem_map.mp hroot
          subst hxid
          obtain ⟨nd, hndmem, hndlk, hndid⟩ := hmap x.id hroot
          have hAeq : (alookup succ x.id).getD [] =
              connectionsFrom (interfaceIdToNodeId nodes) conns x.id := by
            rw [hsucc x hx]
            rfl
          have hrootnot : x.id ∉ st.visited := by simpa using hc
          have hdfs : dfs succ pred nodeMap (fuel + 1) x.id st =
              ((alookup pred x.id).getD []).foldl
                (fun s c => dfs succ pred nodeMap fuel c.fromIntf.nodeId s)
                (((alookup succ x.id).getD []).foldl
                  (fun s c => dfs succ pred nodeMap fuel c.toIntf.nodeId s)
                  ⟨st.visited ++ [x.id], st.compNodes ++ [nd],
                    st.compConns ++ (alookup succ x.id).getD []⟩) := by
            conv_lhs => rw [dfs]
            rw [hc, hndlk]
            rfl
          have chain : ∀ (cs : List Connection) (f : Connection → String)
              (st' : DfsState),
              (∀ c ∈ cs, f c ∈ nodes.map (fun n => n.id)) →
              (∀ u ∈ st'.visited, u ∈ nodes.map (fun n => n.id)) →
              st'.visited.Nodup →
              nodes.length + 1 ≤ fuel + st'.visited.length →
              ∃ t : List Node,
                (cs.foldl (fun s c => dfs succ pred nodeMap fuel (f c) s)
                    st').visited = st'.visited ++ t.map (fun n => n.id) ∧
                (cs.foldl (fun s c => dfs succ pred nodeMap fuel (f c) s)
                    st').compNodes = st'.compNodes ++ t ∧
                (∀ x ∈ t, x ∈ nodes) ∧
                (∀ c, c ∈ (cs.foldl
                    (fun s c => dfs succ pred nodeMap fuel (f c) s)
                    st').compConns ↔
                  (c ∈ st'.compConns ∨
                    (c ∈ conns ∧ c.fromIntf.nodeId ∈ t.map (fun n => n.id)))) ∧
                (∀ c ∈ cs, f c ∈ (cs.foldl
                  (fun s c => dfs succ pred nodeMap fuel (f c) s) st').visited) ∧
                (∀ u ∈ t.map (fun n => n.id), ∀ v, UStep conns u v →
                  v ∈ (cs.foldl
                    (fun s c => dfs succ pred nodeMap fuel (f c) s) st').visited) ∧
                (cs.foldl (fun s c => dfs succ pred nodeMap fuel (f c) s)
                  st').visited.Nodup := by
            intro cs
            induction cs with
            | nil =>
                intro f st' hheads hsub2 hnd2 hfl2
                exact ⟨[], by simp, by simp, by simp, by simp, by simp, by simp,
                  hnd2⟩
            | cons c cs ihc =>
                intro f st' hheads hsub2 hnd2 hfl2
                obtain ⟨t₁, hv1, hn1, hs1, hc1, hr1, hcl1, hnd1⟩ :=
                  ih (f c) st' (hheads c (by simp)) hsub2 hnd2 hfl2
                have hsub3 : ∀ u ∈ (dfs succ pred nodeMap fuel (f c) st').visited,
                    u ∈ nodes.map (fun n => n.id) := by
                  intro u hu
                  rw [hv1] at hu
                  rcases List.mem_append.mp hu with h | h
                  · exact hsub2 u h
                  · obtain ⟨y, hy, hyid⟩ := List.mem_map.mp h
                    rw [← hyid]
                    exact List.mem_map.mpr ⟨y, hs1 y hy, rfl⟩
                have hfl3 : nodes.length + 1 ≤
                    fuel + (dfs succ pred nodeMap fuel (f c) st').visited.length := by
                  rw [hv1, List.length_append]
                  omega
                obtain ⟨t₂, hv2, hn2, hs2, hc2, hr2, hcl2, hnd2b⟩ :=
                  ihc f (dfs succ pred nodeMap fuel (f c) st')
                    (fun c hcc => hheads c (by simp [hcc])) hsub3 hnd1 hfl3
                rw [List.foldl_cons]
                refine ⟨t₁ ++ t₂, ?_, ?_, ?_, ?_, ?_, ?_, hnd2b⟩
                · rw [hv2, hv1]
                  simp [List.append_assoc]
                · rw [hn2, hn1]
                  simp [List.append_assoc]
                · intro y hy
                  rcases List.mem_append.mp hy with h | h
                  · exact hs1 y h
                  · exact hs2 y h
                · intro c'
                  rw [hc2, hc1]
                  constructor
                  · rintro ((h | ⟨h1, h2⟩) | ⟨h1, h2⟩)
                    · exact Or.inl h
                    · exact Or.inr ⟨h1, by simp [h2]⟩
                    · refine Or.inr ⟨h1, ?_⟩
                      simp only [List.map_append, List.mem_append]
                      exact Or.inr h2
                  · rintro (h | ⟨h1, h2⟩)
                    · exact Or.inl (Or.inl h)
                    · simp only [List.map_append, List.mem_append] at h2
                      rcases h2 with h2 | h2
                      · exact Or.inl (Or.inr ⟨h1, h2⟩)
                      · exact Or.inr ⟨h1, h2⟩
                · intro c' hc'
                  rcases List.mem_cons.mp hc' with rfl | h
                  · rw [hv2]
                    exact List.mem_append.mpr (Or.inl hr1)
                  · exact hr2 c' h
                · intro u hu v huv
                  simp only [List.map_append, List.mem_append] at hu
                  rcases hu with h | h
                  · rw [hv2]
                    exact List.mem_append.mpr (Or.inl (hcl1 u h v huv))
                  · exact hcl2 u h v huv
          have hsub3 : ∀ u ∈ st.visited ++ [x.id], u ∈ nodes.map (fun n => n.id) := by
            intro u hu
            rcases List.mem_append.mp hu with h | h
            · exact hsub u h
            · rw [List.mem_singleton.mp h]
              exact hroot
          have hnd3 : (st.visited ++ [x.id]).Nodup := by
            rw [List.nodup_append]
            refine ⟨hnodup, List.nodup_singleton _, ?_⟩
            intro a ha hab
            rw [List.mem_singleton.mp hab] at ha
            exact hrootnot ha
          have hfl3 : nodes.length + 1 ≤ fuel + (st.visited ++ [x.id]).length := by
            rw [List.length_append]
            simp only [List.length_singleton]
            omega
          have hheads1 : ∀ c ∈ (alookup succ x.id).getD [],
              c.toIntf.nodeId ∈ nodes.map (fun n => n.id) := by
            intro c hcc
            rw [hAeq] at hcc
            exact (hends c ((hsuccMem x.id c).mp hcc).1).2
          obtain ⟨t₁, hv1, hn1, hs1, hc1, hr1, hcl1, hnd1⟩ :=
            chain ((alookup succ x.id).getD []) (fun c => c.toIntf.nodeId)
              ⟨st.visited ++ [x.id], st.compNodes ++ [nd],
                st.compConns ++ (alookup succ x.id).getD []⟩
              hheads1 hsub3 hnd3 hfl3
          set st4 := ((alookup succ x.id).getD []).foldl
            (fun s c => dfs succ pred nodeMap fuel c.toIntf.nodeId s)
            ⟨st.visited ++ [x.id], st.compNodes ++ [nd],
              st.compConns ++ (alookup succ x.id).getD []⟩ with hst4
          have hsub4 : ∀ u ∈ st4.visited, u ∈ nodes.map (fun n => n.id) := by
            intro u hu
            rw [hv1] at hu
            rcases List.mem_append.mp hu with h | h
            · exact hsub3 u h
            · obtain ⟨y, hy, hyid⟩ := List.mem_map.mp h
              rw [← hyid]
              exact List.mem_map.mpr ⟨y, hs1 y hy, rfl⟩
          have hfl4 : nodes.length + 1 ≤ fuel + st4.visited.length := by
            rw [hv1, List.length_append, List.length_append]
            simp only [List.length_singleton]
            omega
          have hheads2 : ∀ c ∈ (alookup pred x.id).getD [],
              c.fromIntf.nodeId ∈ nodes.map (fun n => n.id) := by
            intro c hcc
            exact (hends c (hpred x.id c hcc).1).1
          obtain ⟨t₂, hv2, hn2, hs2, hc2, hr2, hcl2, hnd2b⟩ :=
            chain ((alookup pred x.id).getD []) (fun c => c.fromIntf.nodeId)
              st4 hheads2 hsub4 hnd1 hfl4
          rw [hdfs]
          refine ⟨nd :: (t₁ ++ t₂), ?_, ?_, ?_, ?_, ?_, ?_, hnd2b⟩
          · rw [hv2, hv1]
            simp [List.append_assoc, hndid]
          · rw [hn2, hn1]
            simp [List.append_assoc]
          · intro y hy
            rcases List.mem_cons.mp hy with rfl | h
            · exact hndmem
            · rcases List.mem_append.mp h with h | h
              · exact hs1 y h
              · exact hs2 y h
          · intro c'
            rw [hc2, hc1]
            simp only [DfsState.compConns]
            constructor
            · rintro ((h | ⟨h1, h2⟩) | ⟨h1, h2⟩)
              · rcases List.mem_append.mp h with h | h
                · exact Or.inl h
                · rw [hAeq] at h
                  obtain ⟨h1, h2⟩ := (hsuccMem x.id c').mp h
                  refine Or.inr ⟨h1, ?_⟩
                  simp [h2, hndid]
              · refine Or.inr ⟨h1, ?_⟩
                simp only [List.map_cons, List.map_append, List.mem_cons,
                  List.mem_append]
                exact Or.inr (Or.inl h2)
              · refine Or.inr ⟨h1, ?_⟩
                simp only [List.map_cons, List.map_append, List.mem_cons,
                  List.mem_append]
                exact Or.inr (Or.inr h2)
            · rintro (h | ⟨h1, h2⟩)
              · exact Or.inl (Or.inl (List.mem_append.mpr (Or.inl h)))
              · simp only [List.map_cons, List.map_append, List.mem_cons,
                  List.mem_append, hndid] at h2
                rcases h2 with h2 | h2 | h2
                · refine Or.inl (Or.inl (List.mem_append.mpr (Or.inr ?_)))
                  rw [hAeq]
                  exact (hsuccMem x.id c').mpr ⟨h1, h2⟩
                · exact Or.inl (Or.inr ⟨h1, h2⟩)
                · exact Or.inr ⟨h1, h2⟩
          · rw [hv2, hv1]
            simp
          · intro u hu v huv
            simp only [List.map_cons, List.map_append, List.mem_cons,
              List.mem_append, hndid] at hu
            rcases hu with rfl | hu | hu
            · obtain ⟨c, hcconns, hdir⟩ := huv
              rcases hdir with ⟨hf, ht⟩ | ⟨hf, ht⟩
              · have hcA : c ∈ (alookup succ x.id).getD [] := by
                  rw [hAeq]
                  exact (hsuccMem x.id c).mpr ⟨hcconns, hf⟩
                have := hr1 c hcA
                rw [ht] at this
                rw [hv2]
                exact List.mem_append.mpr (Or.inl this)
              · have hcP : c ∈ (alookup pred x.id).getD [] := by
                  have := hpredC c hcconns
                  rw [ht] at this
                  exact this
                have := hr2 c hcP
                rw [hf] at this
                exact this
            · rw [hv2]
              exact List.mem_append.mpr (Or.inl (hcl1 u hu v huv))
            · exact hcl2 u hu v huv

theorem connectedComponents_eq (nodes : List Node) (conns : List Connection) :
    connectedComponents nodes conns =
      (nodes.foldl (ccStep nodes conns) ([], [])).1 := rfl

theorem ccStep_inv (nodes : List Node) (conns : List Connection)
    (hwl : WellLinked nodes conns)
    (acc : List GraphComponent × List String) (n : Node) (hn : n ∈ nodes)
    (hinv : CCInv nodes conns acc) :
    CCInv nodes conns (ccStep nodes conns acc n) ∧
    n.id ∈ (ccStep nodes conns acc n).2 ∧
    (∃ t, (ccStep nodes conns acc n).2 = acc.2 ++ t) := by
  obtain ⟨hnd, hfrom, hto⟩ := hwl
  unfold ccStep
  cases hcn : acc.2.contains n.id with
  | true =>
      rw [if_pos rfl]
      exact ⟨hinv, by simpa using hcn, ⟨[], by simp⟩⟩
  | false =>
      rw [if_neg Bool.false_ne_true]
      dsimp only
      have hsucc2 : ∀ x : Node, x ∈ nodes →
          alookup (buildSuccPred nodes conns (interfaceIdToNodeId nodes)).1 x.id =
            some (connectionsFrom (interfaceIdToNodeId nodes) conns x.id) :=
        fun x hx => succ_lookup nodes conns hnd x hx
      have hpred2 : ∀ v y,
          y ∈ (alookup (buildSuccPred nodes conns (interfaceIdToNodeId nodes)).2
            v).getD [] → y ∈ conns ∧ y.toIntf.nodeId = v := by
        intro v y hy
        obtain ⟨m, hm, hcf, ht⟩ := (pred_lookup_mem nodes conns v y).mp hy
        exact ⟨((mem_connectionsFrom_iff nodes conns hfrom m.id y).mp hcf).1, ht⟩
      have hpredC2 : ∀ c ∈ conns,
          c ∈ (alookup (buildSuccPred nodes conns (interfaceIdToNodeId nodes)).2
            c.toIntf.nodeId).getD [] := by
        intro c hcc
        rw [pred_lookup_mem]
        obtain ⟨x2, hx2, hxid2⟩ :=
          interfaceIdToNodeId_values nodes _ (alookup_mem _ _ _ (hfrom c hcc))
        refine ⟨x2, hx2, ?_, rfl⟩
        rw [mem_connectionsFrom_iff nodes conns hfrom]
        exact ⟨hcc, hxid2.symm⟩
      have hmap2 : ∀ u, u ∈ nodes.map (fun m => m.id) →
          ∃ nd ∈ nodes, alookup (nodeIdToNode nodes) u = some nd ∧ nd.id = u := by
        intro u hu
        obtain ⟨x2, hx2, hxid2⟩ := List.mem_map.mp hu
        refine ⟨x2, hx2, ?_, hxid2⟩
        rw [← hxid2]
        exact nodeIdToNode_lookup nodes hnd x2 hx2
      have hends2 : ∀ c ∈ conns,
          c.fromIntf.nodeId ∈ nodes.map (fun m => m.id) ∧
          c.toIntf.nodeId ∈ nodes.map (fun m => m.id) := by
        intro c hcc
        constructor
        · obtain ⟨x2, hx2, hxid2⟩ :=
            interfaceIdToNodeId_values nodes _ (alookup_mem _ _ _ (hfrom c hcc))
          exact List.mem_map.mpr ⟨x2, hx2, hxid2⟩
        · obtain ⟨x2, hx2, hxid2⟩ :=
            interfaceIdToNodeId_values nodes _ (alookup_mem _ _ _ (hto c hcc))
          exact List.mem_map.mpr ⟨x2, hx2, hxid2⟩
      have hroot : n.id ∈ nodes.map (fun m => m.id) := List.mem_map.mpr ⟨n, hn, rfl⟩
      have hfl : nodes.length + 1 ≤
          (nodes.length + 1) + (DfsState.mk acc.2 [] []).visited.length := by
        simp
      obtain ⟨t, hv, hn2, hs, hciff, hrin, hcl, hndv⟩ :=
        dfs_spec nodes conns
          (buildSuccPred nodes conns (interfaceIdToNodeId nodes)).1
          (buildSuccPred nodes conns (interfaceIdToNodeId nodes)).2
          (nodeIdToNode nodes) hsucc2
          (fun u c => mem_connectionsFrom_iff nodes conns hfrom u c)
          hpred2 hpredC2 hmap2 hends2
          (nodes.length + 1) n.id ⟨acc.2, [], []⟩ hroot
          hinv.visitedSub hinv.visitedNodup hfl
      have hvis : (dfs (buildSuccPred nodes conns (interfaceIdToNodeId nodes)).1
          (buildSuccPred nodes conns (interfaceIdToNodeId nodes)).2
          (nodeIdToNode nodes) (nodes.length + 1) n.id
          ⟨acc.2, [], []⟩).visited = acc.2 ++ t.map (fun m => m.id) := hv
      have hcompn : (dfs (buildSuccPred nodes conns (interfaceIdToNodeId nodes)).1
          (buildSuccPred nodes conns (interfaceIdToNodeId nodes)).2
          (nodeIdToNode nodes) (nodes.length + 1) n.id
          ⟨acc.2, [], []⟩).compNodes = t := by
        rw [hn2]
        rfl
      have hdisj : ∀ a, a ∈ acc.2 → a ∈ t.map (fun m => m.id) → False := by
        intro a h1 h2
        have := hndv
        rw [hvis] at this
        exact (List.nodup_append.mp this).2.2 h1 h2
      have hmemold : ∀ v, v ∈ acc.2 →
          ∃ comp ∈ acc.1, v ∈ comp.nodes.map (fun m => m.id) := by
        intro v hvv
        rw [hinv.visitedEq] at hvv
        obtain ⟨y, hy, hyid⟩ := List.mem_map.mp hvv
        obtain ⟨l, hl, hyl⟩ := List.mem_flatten.mp hy
        obtain ⟨comp, hcomp, hcompl⟩ := List.mem_map.mp hl
        refine ⟨comp, hcomp, ?_⟩
        rw [← hcompl] at hyl
        exact List.mem_map.mpr ⟨y, hyl, hyid⟩
      have hmemoldr : ∀ comp ∈ acc.1, ∀ v,
          v ∈ comp.nodes.map (fun m => m.id) → v ∈ acc.2 := by
        intro comp hcomp v hvv
        rw [hinv.visitedEq]
        obtain ⟨y, hy, hyid⟩ := List.mem_map.mp hvv
        refine List.mem_map.mpr ⟨y, ?_, hyid⟩
        exact List.mem_flatten.mpr ⟨comp.nodes, List.mem_map.mpr ⟨comp, hcomp, rfl⟩, hy⟩
      refine ⟨⟨?_, hndv, ?_, ?_, ?_, ?_⟩, hrin, ⟨t.map (fun m => m.id), hv⟩⟩
      · show (dfs _ _ _ _ _ _).visited = _
        rw [hvis]
        simp only [List.map_append, List.flatten_append, hcompn]
        rw [← hinv.visitedEq]
        simp
      · intro u hu
        rw [hvis] at hu
        rcases List.mem_append.mp hu with h | h
        · exact hinv.visitedSub u h
        · obtain ⟨y, hy, hyid⟩ := List.mem_map.mp h
          rw [← hyid]
          exact List.mem_map.mpr ⟨y, hs y hy, rfl⟩
      · intro comp hcomp x hx
        rcases List.mem_append.mp hcomp with h | h
        · exact hinv.compNodesSub comp h x hx
        · rw [List.mem_singleton.mp h] at hx
          simp only [hcompn] at hx
          exact hs x hx
      · intro comp hcomp u hu v huv
        rcases List.mem_append.mp hcomp with h | h
        · exact hinv.compClosed comp h u hu v huv
        · rw [List.mem_singleton.mp h] at hu ⊢
          simp only [hcompn] at hu ⊢
          have hvin := hcl u hu v huv
          rw [hvis] at hvin
          rcases List.mem_append.mp hvin with hv2 | hv2
          · exfalso
            obtain ⟨comp0, hcomp0, hvcomp0⟩ := hmemold v hv2
            have hucomp0 := hinv.compClosed comp0 hcomp0 v hvcomp0 u huv.symm
            exact hdisj u (hmemoldr comp0 hcomp0 u hucomp0) hu
          · exact hv2
      · intro comp hcomp c
        rcases List.mem_append.mp hcomp with h | h
        · exact hinv.compConnsIff comp h c
        · rw [List.mem_singleton.mp h]
          show c ∈ (dfs _ _ _ _ _ _).compConns ↔ _
          rw [hciff]
          simp only [hcompn]
          constructor
          · rintro (h2 | h2)
            · cases h2
            · exact h2
          · exact fun h2 => Or.inr h2

theorem ccLoop_inv (nodes : List Node) (conns : List Connection)
    (hwl : WellLinked nodes conns) :
    ∀ (rest : List Node) (acc : List GraphComponent × List String),
      (∀ n ∈ rest, n ∈ nodes) → CCInv nodes conns acc →
      CCInv nodes conns (rest.foldl (ccStep nodes conns) acc) ∧
      (∀ n ∈ rest, n.id ∈ (rest.foldl (ccStep nodes conns) acc).2) ∧
      (∃ t, (rest.foldl (ccStep nodes conns) acc).2 = acc.2 ++ t) := by
  intro rest
  induction rest with
  | nil =>
      intro acc _ hinv
      exact ⟨hinv, by simp, ⟨[], by simp⟩⟩
  | cons n rest ihr =>
      intro acc hmem hinv
      obtain ⟨hinv1, hnid, t1, hmono1⟩ :=
        ccStep_inv nodes conns hwl acc n (hmem n (by simp)) hinv
      obtain ⟨hinv2, hall2, t2, hmono2⟩ :=
        ihr (ccStep nodes conns acc n) (fun m hm => hmem m (by simp [hm])) hinv1
      rw [List.foldl_cons]
      refine ⟨hinv2, ?_, ⟨t1 ++ t2, ?_⟩⟩
      · intro m hm
        rcases List.mem_cons.mp hm with rfl | hm2
        · rw [hmono2]
          exact List.mem_append.mpr (Or.inl hnid)
        · exact hall2 m hm2
      · rw [hmono2, hmono1, List.append_assoc]

/-- C3: `connectedComponents` partitions the input nodes into
pairwise-disjoint components whose union is exactly the input node set;
nodes joined by a chain of connections followed in either direction stay in
one component; and each component's connection list holds exactly the input
connections with at least one endpoint in that component. -/
theorem connectedComponents_partition (nodes : List Node)
    (conns : List Connection) (hwl : WellLinked nodes conns) :
    (((connectedComponents nodes conns).map (fun c => c.nodes)).flatten).Perm
      nodes ∧
    (connectedComponents nodes conns).Pairwise
      (fun c₁ c₂ => ∀ x ∈ c₁.nodes, x ∉ c₂.nodes) ∧
    (∀ comp ∈ connectedComponents nodes conns, ∀ u v, UReach conns u v →
      u ∈ comp.nodes.map (fun n => n.id) →
      v ∈ comp.nodes.map (fun n => n.id)) ∧
    (∀ comp ∈ connectedComponents nodes conns, ∀ c,
      c ∈ comp.connections ↔ c ∈ conns ∧
        (c.fromIntf.nodeId ∈ comp.nodes.map (fun n => n.id) ∨
         c.toIntf.nodeId ∈ comp.nodes.map (fun n => n.id))) := by
  obtain ⟨hfin, hallv, hmono⟩ := ccLoop_inv nodes conns hwl nodes ([], [])
    (fun _ h => h) ⟨rfl, List.nodup_nil, by simp, by simp, by simp, by simp⟩
  obtain ⟨hnd, hfrom, hto⟩ := hwl
  rw [connectedComponents_eq nodes conns]
  have hmemflat : ∀ y ∈ ((nodes.foldl (ccStep nodes conns)
      ([], [])).1.map (fun c => c.nodes)).flatten, y ∈ nodes := by
    intro y hy
    obtain ⟨l, hl, hyl⟩ := List.mem_flatten.mp hy
    obtain ⟨comp, hcomp, hcompl⟩ := List.mem_map.mp hl
    rw [← hcompl] at hyl
    exact hfin.compNodesSub comp hcomp y hyl
  have hflnodup : ((nodes.foldl (ccStep nodes conns)
      ([], [])).1.map (fun c => c.nodes)).flatten.Nodup := by
    have h := hfin.visitedNodup
    rw [hfin.visitedEq] at h
    exact h.of_map _
  refine ⟨?_, ?_, ?_, ?_⟩
  · refine (List.perm_ext_iff_of_nodup hflnodup (hnd.of_map _)).mpr ?_
    intro a
    constructor
    · exact hmemflat a
    · intro ha
      have hain : a.id ∈ ((nodes.foldl (ccStep nodes conns)
          ([], [])).1.map (fun c => c.nodes)).flatten.map (fun n => n.id) := by
        rw [← hfin.visitedEq]
        exact hallv a ha
      obtain ⟨y, hy, hyid⟩ := List.mem_map.mp hain
      have hya : y = a := List.inj_on_of_nodup_map hnd (hmemflat y hy) ha hyid
      rw [← hya]
      exact hy
  · have hpw := (List.nodup_flatten.mp hflnodup).2
    have hpw2 := List.pairwise_map.mp hpw
    exact hpw2.imp (fun h x hx1 hx2 => h hx1 hx2)
  · intro comp hcomp u v hre hu
    induction hre with
    | refl => exact hu
    | tail h1 h2 ih => exact hfin.compClosed comp hcomp _ ih _ h2
  · intro comp hcomp c
    constructor
    · intro hcc
      obtain ⟨h1, h2⟩ := (hfin.compConnsIff comp hcomp c).mp hcc
      exact ⟨h1, Or.inl h2⟩
    · rintro ⟨h1, h2 | h2⟩
      · exact (hfin.compConnsIff comp hcomp c).mpr ⟨h1, h2⟩
      · have hstep : UStep conns c.toIntf.nodeId c.fromIntf.nodeId :=
          ⟨c, h1, Or.inr ⟨rfl, rfl⟩⟩
        have hsrc := hfin.compClosed comp hcomp _ h2 _ hstep
        exact (hfin.compConnsIff comp hcomp c).mpr ⟨h1, hsrc⟩

theorem connectedComponents_partition_witness :
    WellLinked [fn1, fn2] [fcn] ∧
    ((((connectedComponents [fn1, fn2] [fcn]).map (fun c => c.nodes)).flatten).Perm
      [fn1, fn2] ∧
    (connectedComponents [fn1, fn2] [fcn]).Pairwise
      (fun c₁ c₂ => ∀ x ∈ c₁.nodes, x ∉ c₂.nodes) ∧
    (∀ comp ∈ connectedComponents [fn1, fn2] [fcn], ∀ u v, UReach [fcn] u v →
      u ∈ comp.nodes.map (fun n => n.id) →
      v ∈ comp.nodes.map (fun n => n.id)) ∧
    (∀ comp ∈ connectedComponents [fn1, fn2] [fcn], ∀ c,
      c ∈ comp.connections ↔ c ∈ [fcn] ∧
        (c.fromIntf.nodeId ∈ comp.nodes.map (fun n => n.id) ∨
         c.toIntf.nodeId ∈ comp.nodes.map (fun n => n.id)))) :=
  ⟨by unfold WellLinked; decide,
    connectedComponents_partition [fn1, fn2] [fcn] (by unfold WellLinked; decide)⟩

theorem alookup_foldl_aset_none {α : Type} (entries : List (String × α)) :
    ∀ (r : List (String × α)) (k : String),
      (∀ p ∈ entries, p.1 ≠ k) →
      alookup (entries.foldl (fun r p => aset r p.1 p.2) r) k = alookup r k := by
  induction entries with
  | nil => intro r k _; rfl
  | cons p rest ih =>
      intro r k hne
      rw [List.foldl_cons, ih _ k (fun q hq => hne q (by simp [hq]))]
      exact alookup_aset_ne _ _ _ _ (Ne.symm (hne p (by simp)))

theorem finishNode_avoid (cfn : List (String × List Connection))
    (td : JsVal → Connection → JsVal) (node : Node)
    (ins outs : List (String × JsVal))
    (cr : Option (List (String × ResultEntry))) (st : RunState) (k : String)
    (hk : k ≠ node.id)
    (hcr : ∀ entries, cr = some entries → ∀ p ∈ entries, p.1 ≠ k) :
    (finishNode cfn td node ins outs cr st).invoked = st.invoked ∧
    (∀ e ∈ (finishNode cfn td node ins outs cr st).events,
      e ∈ st.events ∨ eventNodeId e = node.id) ∧
    alookup (finishNode cfn td node ins outs cr st).result k =
      alookup st.result k := by
  unfold finishNode
  cases hval : validateNodeCalculationOutput node outs with
  | some e => exact ⟨rfl, fun e2 he => Or.inl he, rfl⟩
  | none =>
      dsimp only
      cases cr with
      | none =>
          dsimp only
          cases hcs : alookup cfn node.id with
          | some cs =>
              refine ⟨?_, ?_, ?_⟩
              · rw [foldl_stageOne_invoked]
              · intro e2 he
                rw [foldl_stageOne_events] at he
                rcases List.mem_append.mp he with h | h
                · exact Or.inl h
                · rw [List.mem_singleton.mp h]
                  exact Or.inr rfl
              · rw [foldl_stageOne_result]
                exact alookup_aset_ne _ _ _ _ hk
          | none =>
              refine ⟨rfl, ?_, ?_⟩
              · intro e2 he
                rcases List.mem_append.mp he with h | h
                · exact Or.inl h
                · rw [List.mem_singleton.mp h]
                  exact Or.inr rfl
              · exact alookup_aset_ne _ _ _ _ hk
      | some entries =>
          dsimp only
          have hres : alookup
              (entries.foldl (fun r p => aset r p.1 p.2)
                (aset st.result node.id ⟨ins, outs⟩)) k =
              alookup st.result k := by
            rw [alookup_foldl_aset_none entries _ k (hcr entries rfl)]
            exact alookup_aset_ne _ _ _ _ hk
          cases hcs : alookup cfn node.id with
          | some cs =>
              refine ⟨?_, ?_, ?_⟩
              · rw [foldl_stageOne_invoked]
              · intro e2 he
                rw [foldl_stageOne_events] at he
                rcases List.mem_append.mp he with h | h
                · exact Or.inl h
                · rw [List.mem_singleton.mp h]
                  exact Or.inr rfl
              · rw [foldl_stageOne_result]
                exact hres
          | none =>
              refine ⟨rfl, ?_, ?_⟩
              · intro e2 he
                rcases List.mem_append.mp he with h | h
                · exact Or.inl h
                · rw [List.mem_singleton.mp h]
                  exact Or.inr rfl
              · exact hres

theorem processNode_avoid (u : Option String)
    (cfn : List (String × List Connection)) (td : JsVal → Connection → JsVal)
    (st : RunState) (node : Node) (k : String) (hk : k ≠ node.id)
    (hclean : ∀ f, node.calculate = some f → ∀ ins crs,
      (f ins).calculationResults = some crs → ∀ p ∈ crs, p.1 ≠ k) :
    (k ∉ st.invoked → k ∉ (processNode u cfn td st node).invoked) ∧
    ((∀ e ∈ st.events, eventNodeId e ≠ k) →
      ∀ e ∈ (processNode u cfn td st node).events, eventNodeId e ≠ k) ∧
    (alookup st.result k = none →
      alookup (processNode u cfn td st node).result k = none) := by
  unfold processNode
  cases herr : st.error.isSome with
  | true =>
      rw [if_pos rfl]
      exact ⟨fun h => h, fun h => h, fun h => h⟩
  | false =>
      rw [if_neg Bool.false_ne_true]
      cases hcalc : node.calculate with
      | none => exact ⟨fun h => h, fun h => h, fun h => h⟩
      | some calcStep =>
          dsimp only
          cases hdec : invokeDecision u node (inputsChangedRecord st.inputs node)
            with
          | true =>
              rw [if_pos rfl]
              obtain ⟨hinv, hev, hres⟩ := finishNode_avoid cfn td node
                (resolvedInputRecord st.inputs node)
                (calcStep (resolvedInputRecord st.inputs node)).values
                (calcStep (resolvedInputRecord st.inputs node)).calculationResults
                ⟨st.inputs,
                  st.result,
                  (st.events ++ [EngineEvent.beforeCalc node.id
                    (resolvedInputRecord st.inputs node)]),
                  (st.invoked ++ [node.id]), st.nextIdentity, st.error⟩ k hk
                (fun entries hent => hclean calcStep hcalc
                  (resolvedInputRecord st.inputs node) entries hent)
              refine ⟨?_, ?_, ?_⟩
              · intro hknot hkin
                rw [hinv] at hkin
                rcases List.mem_append.mp hkin with h | h
                · exact hknot h
                · exact hk (List.mem_singleton.mp h)
              · intro hall e2 he
                rcases hev e2 he with h | h
                · rcases List.mem_append.mp h with h2 | h2
                  · exact hall e2 h2
                  · rw [List.mem_singleton.mp h2]
                    exact Ne.symm hk
                · rw [h]
                  exact Ne.symm hk
              · intro hnone
                rw [hres]
                exact hnone
          | false =>
              rw [if_neg Bool.false_ne_true]
              obtain ⟨hinv, hev, hres⟩ := finishNode_avoid cfn td node
                (resolvedInputRecord st.inputs node)
                (storedOutputRecord node) none
                ⟨st.inputs, st.result,
                  (st.events ++ [EngineEvent.beforeCalc node.id
                    (resolvedInputRecord st.inputs node)]),
                  st.invoked, st.nextIdentity, st.error⟩ k hk
                (fun entries hent => absurd hent (by simp))
              refine ⟨?_, ?_, ?_⟩
              · intro hknot hkin
                rw [hinv] at hkin
                exact hknot hkin
              · intro hall e2 he
                rcases hev e2 he with h | h
                · rcases List.mem_append.mp h with h2 | h2
                  · exact hall e2 h2
                  · rw [List.mem_singleton.mp h2]
                    exact Ne.symm hk
                · rw [h]
                  exact Ne.symm hk
              · intro hnone
                rw [hres]
                exact hnone

theorem foldl_processNode_avoid (u : Option String)
    (cfn : List (String × List Connection)) (td : JsVal → Connection → JsVal)
    (k : String) :
    ∀ (ns : List Node),
      (∀ n ∈ ns, k ≠ n.id) →
      (∀ n ∈ ns, ∀ f, n.calculate = some f → ∀ ins crs,
        (f ins).calculationResults = some crs → ∀ p ∈ crs, p.1 ≠ k) →
      ∀ st : RunState,
        (k ∉ st.invoked → k ∉ (ns.foldl (processNode u cfn td) st).invoked) ∧
        ((∀ e ∈ st.events, eventNodeId e ≠ k) →
          ∀ e ∈ (ns.foldl (processNode u cfn td) st).events, eventNodeId e ≠ k) ∧
        (alookup st.result k = none →
          alookup (ns.foldl (processNode u cfn td) st).result k = none) := by
  intro ns
  induction ns with
  | nil => intro _ _ st; exact ⟨fun h => h, fun h => h, fun h => h⟩
  | cons n ns ihn =>
      intro hk hcl st
      rw [List.foldl_cons]
      obtain ⟨h1, h2, h3⟩ := processNode_avoid u cfn td st n k (hk n (by simp))
        (hcl n (by simp))
      obtain ⟨g1, g2, g3⟩ := ihn (fun m hm => hk m (by simp [hm]))
        (fun m hm => hcl m (by simp [hm])) (processNode u cfn td st n)
      exact ⟨fun h => g1 (h1 h), fun h => g2 (h2 h), fun h => g3 (h3 h)⟩

theorem runComponentsLoop_avoid (u : String) (td : JsVal → Connection → JsVal)
    (k : String) :
    ∀ (comps : List SortResult),
      (∀ comp' ∈ comps, (∃ m ∈ comp'.calculationOrder, m.id = u) →
        (∀ n' ∈ comp'.calculationOrder, k ≠ n'.id) ∧
        (∀ n' ∈ comp'.calculationOrder, ∀ f, n'.calculate = some f →
          ∀ ins crs, (f ins).calculationResults = some crs →
          ∀ p ∈ crs, p.1 ≠ k)) →
      ∀ st : RunState,
        (k ∉ st.invoked → k ∉ (runComponentsLoop (some u) td comps st).invoked) ∧
        ((∀ e ∈ st.events, eventNodeId e ≠ k) →
          ∀ e ∈ (runComponentsLoop (some u) td comps st).events,
            eventNodeId e ≠ k) ∧
        (alookup st.result k = none →
          alookup (runComponentsLoop (some u) td comps st).result k = none) := by
  intro comps
  induction comps with
  | nil => intro _ st; exact ⟨fun h => h, fun h => h, fun h => h⟩
  | cons comp comps ihc =>
      intro hcl st
      unfold runComponentsLoop
      rw [List.foldl_cons]
      have htail := ihc (fun c' hc' => hcl c' (by simp [hc']))
      cases hcond : ((some u : Option String).isSome &&
          (comp.calculationOrder.find? (fun n => some n.id == some u)).isNone) with
      | true =>
          rw [if_pos rfl]
          exact htail st
      | false =>
          rw [if_neg Bool.false_ne_true]
          have hex : ∃ m ∈ comp.calculationOrder, m.id = u := by
            simp only [Option.isSome_some, Bool.true_and] at hcond
            cases hf : comp.calculationOrder.find? (fun n => some n.id == some u)
              with
            | none => rw [hf] at hcond; cases hcond
            | some m =>
                have hm := List.mem_of_find?_eq_some hf
                have hp := List.find?_some hf
                simp only [beq_iff_eq, Option.some.injEq] at hp
                exact ⟨m, hm, hp⟩
          obtain ⟨hk2, hcl2⟩ := hcl comp (by simp) hex
          obtain ⟨p1, p2, p3⟩ := foldl_processNode_avoid (some u)
            comp.connectionsFromNode td k comp.calculationOrder hk2 hcl2 st
          obtain ⟨q1, q2, q3⟩ := htail
            (calculateComponent (some u) td st comp)
          exact ⟨fun h => q1 (p1 h), fun h => q2 (p2 h), fun h => q3 (p3 h)⟩

/-- C6 counterexample: in a run on a two-component graph hinted at node
"A", the component containing only node "B" is skipped — "B" is never
invoked and no event carries its id — yet the returned result map holds an
entry keyed "B", injected by the merge of the executed node's nested
`_calculationResults`. -/
theorem component_skip_leak_cex :
    (∃ comps, getSortedComponents subResGraph.nodes subResGraph.connections
        = .ok comps ∧
      comps.map (fun c => c.calculationOrder.map (fun n => n.id)) =
        [["A"], ["B"]]) ∧
    (runGraphModel subResGraph [] (some "A") (fun v _ => v) 0).invoked = ["A"] ∧
    ((runGraphModel subResGraph [] (some "A") (fun v _ => v) 0).events.map
      eventNodeId) = ["A", "A"] ∧
    alookup (runGraphModel subResGraph [] (some "A") (fun v _ => v) 0).result "B"
      = some ⟨[], [("o", JsVal.prim 7)]⟩ :=
  ⟨⟨_, rfl, rfl⟩, rfl, rfl, rfl⟩

/-- C6 (amended): in a hinted run, a sorted component containing no node
with the hint's id is skipped: none of its nodes is invoked and no
notification carries their ids; moreover no entry keyed by its nodes' ids
appears in the result, provided the executed components' nodes neither
share ids with the skipped component nor emit nested `_calculationResults`
entries keyed by its nodes' ids (the merge of nested sub-run results can
otherwise inject such keys). -/
theorem component_skip_amended (g : Graph) (inputs : List (String × JsVal))
    (u : String) (td : JsVal → Connection → JsVal) (ni : Nat)
    (comps : List SortResult)
    (hsort : getSortedComponents g.nodes g.connections = .ok comps)
    (comp : SortResult) (hcomp : comp ∈ comps)
    (hskip : ∀ n ∈ comp.calculationOrder, n.id ≠ u)
    (hdisj : ∀ comp' ∈ comps, (∃ m ∈ comp'.calculationOrder, m.id = u) →
      ∀ n' ∈ comp'.calculationOrder,
        n'.id ∉ comp.calculationOrder.map (fun n => n.id))
    (hclean : ∀ comp' ∈ comps, (∃ m ∈ comp'.calculationOrder, m.id = u) →
      ∀ n' ∈ comp'.calculationOrder, ∀ f, n'.calculate = some f →
      ∀ ins crs, (f ins).calculationResults = some crs →
      ∀ p ∈ crs, p.1 ∉ comp.calculationOrder.map (fun n => n.id)) :
    ∀ k ∈ comp.calculationOrder.map (fun n => n.id),
      k ∉ (runGraphModel g inputs (some u) td ni).invoked ∧
      (∀ e ∈ (runGraphModel g inputs (some u) td ni).events,
        eventNodeId e ≠ k) ∧
      alookup (runGraphModel g inputs (some u) td ni).result k = none := by
  intro k hkmem
  unfold runGraphModel
  rw [hsort]
  obtain ⟨h1, h2, h3⟩ := runComponentsLoop_avoid u td k comps
    (fun comp' hc' hex => by
      constructor
      · intro n' hn' heq
        exact hdisj comp' hc' hex n' hn' (by rw [← heq]; exact hkmem)
      · intro n' hn' f hf ins crs hcrs p hp heq
        exact hclean comp' hc' hex n' hn' f hf ins crs hcrs p hp
          (by rw [heq]; exact hkmem))
    (initialRunState inputs ni)
  exact ⟨h1 (by simp [initialRunState]), h2 (by simp [initialRunState]), h3 rfl⟩

theorem component_skip_amended_witness :
    "n3" ∉ (runGraphModel skipGraph [] (some "n1") (fun v _ => v) 0).invoked ∧
    (∀ e ∈ (runGraphModel skipGraph [] (some "n1") (fun v _ => v) 0).events,
      eventNodeId e ≠ "n3") ∧
    alookup (runGraphModel skipGraph [] (some "n1") (fun v _ => v) 0).result "n3"
      = none := by
  have h := component_skip_amended skipGraph [] "n1" (fun v _ => v) 0 _ rfl _
    (List.mem_cons_of_mem _ (List.mem_cons_self _ _))
    (by decide) (by decide) ?hclean
  · exact h "n3" (by decide)
  case hclean =>
    intro comp' hc' hex n' hn' f hf ins crs hcrs p hp
    exfalso
    have htc : n'.calculate = some tCalc := by
      rcases List.mem_cons.mp hc' with rfl | hc2
      · have hn2 : n' ∈ [fn1, fn2] := hn'
        rcases List.mem_cons.mp hn2 with rfl | hn3
        · rfl
        · rcases List.mem_cons.mp hn3 with rfl | hn4
          · rfl
          · cases hn4
      · rcases List.mem_cons.mp hc2 with rfl | hc3
        · have hn2 : n' ∈ [isoNode] := hn'
          rcases List.mem_cons.mp hn2 with rfl | hn3
          · rfl
          · cases hn3
        · cases hc3
    rw [htc] at hf
    cases hf
    rw [show (tCalc ins).calculationResults = none from rfl] at hcrs
    cases hcrs

end Baklava